import Mathlib

/-
  Verification development for the tenzing scheduler core: a shallow
  embedding of the operation model, the frontier expander, the MCTS node
  logic and the MPI broadcast of candidate orderings, with theorems about
  the properties stated in the specification.
-/

set_option maxHeartbeats 1000000

namespace Tenzing

/-- Stream handles are value-type unsigned ids (platform.hpp, struct Stream). -/
abbrev StreamId := Nat

/-- Event handles are value-type unsigned ids (platform.hpp, struct Event). -/
abbrev EventId := Nat

/-- The polymorphic operation model.  Each C++ class becomes one
constructor carrying its fields (ops_cuda.hpp).  An unbound GpuOp is
identified by the id of the concrete subclass instance together with its
name; a BoundGpuOp pairs that data with a stream.  The CPU and MPI
operations are represented by cpuOp, since only their name takes part in
the logic under study. -/
inductive Op where
  | cpuOp (name : String)
  | gpuOp (id : Nat) (name : String)
  | boundGpuOp (id : Nat) (name : String) (stream : StreamId)
  | streamWait (name : String) (waitee : StreamId) (waiter : StreamId) (event : EventId)
  | streamSync (name : String) (stream : StreamId)
  | cudaEventRecord (name : String) (event : EventId) (stream : StreamId)
  | cudaStreamWaitEvent (name : String) (stream : StreamId) (event : EventId)
  | cudaEventSync (name : String) (event : EventId)
deriving DecidableEq, Repr

namespace Op

/-- Operation name, as returned by the virtual name() member.  A
BoundGpuOp returns the name of its underlying GpuOp (ops_cuda.hpp). -/
def name : Op → String
  | cpuOp n => n
  | gpuOp _ n => n
  | boundGpuOp _ n _ => n
  | streamWait n _ _ _ => n
  | streamSync n _ => n
  | cudaEventRecord n _ _ => n
  | cudaStreamWaitEvent n _ _ => n
  | cudaEventSync n _ => n

/-- Discriminant tag, as returned by the virtual tag() member
(ops_cuda.hpp assigns 3..8; cpuOp and gpuOp get fresh small tags
for the variants whose tag assignment lies outside src). -/
def tag : Op → Nat
  | cpuOp _ => 0
  | gpuOp _ _ => 1
  | boundGpuOp _ _ _ => 8
  | streamWait _ _ _ _ => 3
  | streamSync _ _ => 4
  | cudaEventRecord _ _ _ => 5
  | cudaStreamWaitEvent _ _ _ => 6
  | cudaEventSync _ _ => 7

/-- Stream the operation runs on, when it is stream-bound. -/
def stream? : Op → Option StreamId
  | boundGpuOp _ _ s => some s
  | _ => none

/-- Value equality of operations, the virtual eq() member: operations of
different dynamic types are unequal, operations of the same type compare
with operator==.  The operator== bodies are from ops_cuda.hpp:
BoundGpuOp compares stream and the underlying GpuOp; StreamWait,
CudaEventRecord, CudaStreamWaitEvent and CudaEventSync compare the name
only; StreamSync::operator== ignores the argument and returns true.
Modelled from the spec: the cross-variant dispatch (EQ_DEF) and the
CpuOp and GpuOp operator==, whose sources are outside src, follow the
spec sentence that equality considers the variant and its fields. -/
def eq : Op → Op → Bool
  | cpuOp n, cpuOp n' => n == n'
  | gpuOp i n, gpuOp i' n' => i == i' && n == n'
  | boundGpuOp i n s, boundGpuOp i' n' s' => s == s' && (i == i' && n == n')
  | streamWait n _ _ _, streamWait n' _ _ _ => n == n'
  | streamSync _ _, streamSync _ _ => true
  | cudaEventRecord n _ _, cudaEventRecord n' _ _ => n == n'
  | cudaStreamWaitEvent n _ _, cudaStreamWaitEvent n' _ _ => n == n'
  | cudaEventSync n _, cudaEventSync n' _ => n == n'
  | _, _ => false

/-- An operation is a synchronization operation iff it is one of the
five synchronization variants inserted by the scheduler. -/
def isSync : Op → Bool
  | streamWait _ _ _ _ => true
  | streamSync _ _ => true
  | cudaEventRecord _ _ _ => true
  | cudaStreamWaitEvent _ _ _ => true
  | cudaEventSync _ _ => true
  | _ => false

/-- Underlying unbound form of an operation: a BoundGpuOp unbinds to its
GpuOp, every other operation is its own unbound form.
Modelled from the spec: the unbound() accessor is in src
(ops_cuda.hpp BoundGpuOp::unbound), the identity fallback for other
operations follows the spec description of contains_unbound. -/
def unbound : Op → Op
  | boundGpuOp i n _ => gpuOp i n
  | o => o

end Op

/- ===================== mpi_bcast (mcts.cpp 28..94) ===================== -/

/-- Receiver side of the wire format: split the flat character buffer
into strings of the broadcast lengths (mcts.cpp, break into strings). -/
def splitNames : List Nat → List Char → List String
  | [], _ => []
  | l :: ls, cs => String.mk (cs.take l) :: splitNames ls (cs.drop l)

/-- Sender side of the wire format: the concatenated characters of all
operation names, in order (mcts.cpp, bcast names). -/
def flatNames (order : List Op) : List Char :=
  (order.map (fun op => op.name.toList)).flatten

/-- Index of the first operation in order whose name matches, the
receiver-side matching loop of mpi_bcast (mcts.cpp, find corresponding
op in order if recieving). -/
def findPos (order : List Op) (nm : String) : Option Nat :=
  order.findIdx? (fun op => op.name == nm)

/-- Positions of the broadcast names in the local list; the first name
without a matching operation raises the fatal error (THROW_RUNTIME). -/
def bcastPositions (order : List Op) : List String → Except String (List Nat)
  | [] => .ok []
  | nm :: rest =>
    match findPos order nm with
    | some i =>
      match bcastPositions order rest with
      | .ok is => .ok (i :: is)
      | .error e => .error e
    | none => .error nm

/-- Reorder the local operation list according to the received names
(mcts.cpp, reorder operations). -/
def bcastRecv (order : List Op) (names : List String) : Except String (List Op) :=
  match bcastPositions order names with
  | .ok pos => .ok (pos.map (fun i => order.getD i (.cpuOp "")))
  | .error e => .error e

/-- Broadcast of an ordering: rank 0 keeps its own list; every other
rank reconstructs the ordering from the broadcast name lengths and
concatenated names by matching each name against its local list
(mcts.cpp mpi_bcast).  The fatal THROW_RUNTIME is the error case. -/
def mpi_bcast (rank : Nat) (rootOrder localOrder : List Op) : Except String (List Op) :=
  if rank = 0 then .ok rootOrder
  else
    bcastRecv localOrder
      (splitNames (rootOrder.map (fun op => op.name.length)) (flatNames rootOrder))

/- ===================== Graph, Sequence, Platform ===================== -/

/-- Operation graph: bidirectional adjacency stored as association lists
(the preds_ and succs_ maps of Graph) plus the distinguished start
vertex.  Modelled from the spec: graph.hpp is outside src; the spec
describes two mappings preds and succs and a start operation. -/
structure SGraph where
  succs : List (Op × List Op)
  preds : List (Op × List Op)
  start : Op

/-- Lookup of a key in an adjacency list. -/
def adjFind (m : List (Op × List Op)) (k : Op) : Option (List Op) :=
  (m.find? (fun e => e.1 == k)).map (fun e => e.2)

/-- Lookup with the empty list for missing keys; the total counterpart of
the .at access of std::map in the C++ code. -/
def adjAt (m : List (Op × List Op)) (k : Op) : List Op :=
  (adjFind m k).getD []

def SGraph.succsAt (g : SGraph) (v : Op) : List Op := adjAt g.succs v

def SGraph.predsAt (g : SGraph) (v : Op) : List Op := adjAt g.preds v

/-- succs_find_or_find_unbound: look up the successors by identity,
falling back to the unbound form of a bound operation.  Modelled from
the spec: graph.hpp is outside src; the spec says the lookup is by
identity with an unbound fallback for bound operations. -/
def SGraph.succsFindOrUnbound (g : SGraph) (v : Op) : Option (List Op) :=
  match adjFind g.succs v with
  | some l => some l
  | none =>
    match v with
    | .boundGpuOp i n _ => adjFind g.succs (.gpuOp i n)
    | _ => none

/-- Predecessors of an operation in G with the identity-or-unbound
lookup, used to state what the predecessors of a platform variation
are. -/
def SGraph.predsFindOrUnbound (g : SGraph) (v : Op) : List Op :=
  match adjFind g.preds v with
  | some l => l
  | none =>
    match v with
    | .boundGpuOp i n _ => adjAt g.preds (.gpuOp i n)
    | _ => []

/-- Membership test of Sequence<BoundOp>.  Modelled from the spec:
sequence.hpp is outside src; contains_unbound is true iff some element
equals op or has the same underlying unbound operation as op. -/
def containsUnbound (completed : List Op) (op : Op) : Bool :=
  completed.any (fun e => e == op || e.unbound == op.unbound)

/-- Platform model: the pool of allocated stream ids; platform.hpp
issues stream ids 0, 1, ... monotonically and a fresh stream gets the
next id. -/
structure Plat where
  streams : List StreamId

/-- Platform variations of a candidate.  Modelled from the spec: for a
GpuOp one BoundGpuOp per existing stream plus one for a freshly
allocated stream; an already bound operation or a CpuOp yields the
single variation equal to itself. -/
def make_platform_variations (plat : Plat) (op : Op) : List Op :=
  match op with
  | .gpuOp i n => (plat.streams ++ [plat.streams.length]).map (fun s => .boundGpuOp i n s)
  | o => [o]

/- ===================== EventSynchronizer ===================== -/

/-- Event mentioned by a synchronization operation, if any. -/
def Op.event? : Op → Option EventId
  | .cudaEventRecord _ e _ => some e
  | .cudaStreamWaitEvent _ _ e => some e
  | .cudaEventSync _ e => some e
  | .streamWait _ _ _ e => some e
  | _ => none

/-- Index in the completed sequence of the occurrence of a predecessor:
the first element equal to p or with the same unbound form. -/
def predIdx (completed : List Op) (p : Op) : Option Nat :=
  completed.findIdx? (fun e => e == p || e.unbound == p.unbound)

/-- After index ip, a CudaEventRecord on stream ps followed by a
CudaStreamWaitEvent on stream vs for the same event, or a StreamWait
composite with those streams (spec case 2 of is_synced). -/
def recordThenWait (completed : List Op) (ip : Nat) (ps vs : StreamId) : Bool :=
  let tail := completed.drop (ip + 1)
  tail.enum.any (fun je =>
    match je.2 with
    | .cudaEventRecord _ e s =>
      s == ps && (tail.drop (je.1 + 1)).any (fun w =>
        match w with
        | .cudaStreamWaitEvent _ s' e' => s' == vs && e' == e
        | _ => false)
    | .streamWait _ waitee waiter _ => waitee == ps && waiter == vs
    | _ => false)

/-- After index ip, a CudaEventRecord on stream ps followed by a
CPU-side CudaEventSync on the same event or a StreamSync on ps
(spec case 3 of is_synced). -/
def recordThenHostSync (completed : List Op) (ip : Nat) (ps : StreamId) : Bool :=
  let tail := completed.drop (ip + 1)
  tail.enum.any (fun je =>
    match je.2 with
    | .cudaEventRecord _ e s =>
      s == ps && (tail.drop (je.1 + 1)).any (fun w =>
        match w with
        | .cudaEventSync _ e' => e' == e
        | .streamSync _ s' => s' == ps
        | _ => false)
    | _ => false)

/-- Synchronization state of one predecessor edge.  Modelled from the
spec: event_synchronizer.hpp is outside src; the three cases follow
section 4.1: same resource with p completed; cross-stream record then
wait; GPU to CPU record then host-side sync.  A CPU predecessor that is
completed needs nothing since the CPU serializes itself. -/
def predSynced (completed : List Op) (v p : Op) : Bool :=
  match predIdx completed p with
  | none => false
  | some ip =>
    match (completed.getD ip (.cpuOp "")).stream?, v.stream? with
    | none, _ => true
    | some ps, some vs => if ps == vs then true else recordThenWait completed ip ps vs
    | some ps, none => recordThenHostSync completed ip ps

/-- is_synced of the EventSynchronizer.  Modelled from the spec:
event_synchronizer.hpp is outside src; true iff every predecessor of v
in G satisfies one of the three cases of section 4.1. -/
def is_synced (v : Op) (g : SGraph) (completed : List Op) : Bool :=
  (g.predsFindOrUnbound v).all (predSynced completed v)

/-- Next unused event id, the deterministic stand-in of
Platform::new_event for the fresh-event case of make_syncs. -/
def freshEvent (completed : List Op) : EventId :=
  (completed.filterMap Op.event?).foldl (fun a e => max a (e + 1)) 0

/-- First event already recorded on stream ps after position ip, the
reuse candidate of the make_syncs policy. -/
def reuseEvent (completed : List Op) (ip : Nat) (ps : StreamId) : Option EventId :=
  (completed.drop (ip + 1)).findSome? (fun o =>
    match o with
    | .cudaEventRecord _ e s => if s == ps then some e else none
    | _ => none)

/-- Synchronizations for one unsynced predecessor edge.  Modelled from
the spec: section 4.1 policy; GPU to GPU across streams emits a record
on the producer stream plus a stream wait on the consumer stream; GPU to
CPU emits a record plus a CPU-side event sync; an event already recorded
after p is reused instead of re-recorded; same-stream and CPU edges need
nothing.  The generated operations carry the anon default names of the
ops_cuda.hpp constructors. -/
def syncsForPred (completed : List Op) (v p : Op) : List Op :=
  match predIdx completed p with
  | none => []
  | some ip =>
    match (completed.getD ip (.cpuOp "")).stream?, v.stream? with
    | none, _ => []
    | some ps, some vs =>
      if ps == vs then []
      else
        match reuseEvent completed ip ps with
        | some e => [.cudaStreamWaitEvent "CudaStreamWaitEvent-anon" vs e]
        | none =>
          [.cudaEventRecord "CudaEventRecord-anon" (freshEvent completed) ps,
           .cudaStreamWaitEvent "CudaStreamWaitEvent-anon" vs (freshEvent completed)]
    | some ps, none =>
      match reuseEvent completed ip ps with
      | some e => [.cudaEventSync "CudaEventSync-anon" e]
      | none =>
        [.cudaEventRecord "CudaEventRecord-anon" (freshEvent completed) ps,
         .cudaEventSync "CudaEventSync-anon" (freshEvent completed)]

/-- make_syncs of the EventSynchronizer.  Modelled from the spec:
event_synchronizer.hpp is outside src; the union over unsynced
predecessor edges of the per-edge synchronizations. -/
def make_syncs (v : Op) (g : SGraph) (completed : List Op) : List Op :=
  (g.predsFindOrUnbound v).foldl (fun acc p =>
    if predSynced completed v p then acc else acc ++ syncsForPred completed v p) []

/- ===================== get_frontier (mcts_node.cpp 38..150) ===================== -/

/-- Append x unless already present, the do-not-add-duplicates insertion
of the frontier candidate gathering. -/
def addUniqueVal (acc : List Op) (x : Op) : List Op :=
  if acc.contains x then acc else acc ++ [x]

/-- keep_uniques: deduplicate by value equality keeping first
occurrences.  Modelled from the spec: the implementation is outside src;
the spec says deduplicate the result by value-equality. -/
def keep_uniques (ops : List Op) : List Op :=
  ops.foldl (fun acc o => if acc.any (fun x => x.eq o) then acc else acc ++ [o]) []

/-- Frontier of next legal operations (get_frontier, mcts_node.cpp lines
38..150): gather the successors of completed operations with the
identity-or-unbound lookup, drop operations already done or with an
incomplete predecessor, expand each candidate into its platform
variations, emit each synced variation directly and the needed
synchronizers otherwise, and deduplicate. -/
def get_frontier (plat : Plat) (g : SGraph) (completed : List Op) : List Op :=
  let onePredCompleted := completed.foldl (fun acc cOp =>
    match g.succsFindOrUnbound cOp with
    | some succs => succs.foldl addUniqueVal acc
    | none => acc) []
  let candidates := onePredCompleted.filter (fun cOp =>
    !(containsUnbound completed cOp)
    && (g.predsAt cOp).all (containsUnbound completed))
  let frontier := candidates.foldl (fun acc candidate =>
    (make_platform_variations plat candidate).foldl (fun acc2 bound =>
      if is_synced bound g completed then acc2 ++ [bound]
      else acc2 ++ make_syncs bound g completed) acc) []
  keep_uniques frontier

/- ============ get_simulation_order (mcts_node.hpp 254..347) ============ -/

/-- Eligibility of a successor for the simulation frontier: not already
in the frontier (unique), not already in the path (notDone), and all its
predecessors in the path (predsDone). -/
def simEligible (g : SGraph) (path frontier : List Op) (child : Op) : Bool :=
  !(frontier.contains child) && !(path.contains child)
    && (g.predsAt child).all (fun p => path.contains p)

/-- Append every eligible element of succs to the frontier, in order;
the successor-scanning loops of get_simulation_order. -/
def addEligibles (g : SGraph) (path : List Op) (acc succs : List Op) : List Op :=
  succs.foldl (fun f c => if simEligible g path f c then f ++ [c] else f) acc

/-- Initial simulation frontier: one pass over the path adding each
eligible successor (mcts_node.hpp lines 277..300). -/
def simInitFrontier (g : SGraph) (path : List Op) : List Op :=
  path.foldl (fun f op => addEligibles g path f (g.succsAt op)) []

/-- One iteration of the playout loop (mcts_node.hpp lines 303..335):
pick the random index, append that frontier operation to the path, add
its eligible successors against the grown path, then erase the chosen
index. -/
def simStep (g : SGraph) (path frontier : List Op) (r : Nat) : List Op × List Op :=
  let ii := r % frontier.length
  let op := frontier.getD ii (.cpuOp "")
  let path' := path ++ [op]
  let frontier' := addEligibles g path' frontier (g.succsAt op)
  (path', frontier'.eraseIdx ii)

/-- The playout loop; the C++ while loop runs until the frontier is
empty, the fuel argument is an embedding artifact and the invariants
proved below show the frontier always empties before the fuel does. -/
def simLoop (g : SGraph) : Nat → List Nat → List Op → List Op → List Op
  | 0, _, path, _ => path
  | fuel + 1, rng, path, frontier =>
    if frontier.isEmpty then path
    else
      let pf := simStep g path frontier (rng.headD 0)
      simLoop g fuel rng.tail pf.1 pf.2

/-- get_simulation_order (mcts_node.hpp 254..347): starting from the
path of the node, complete the schedule by repeatedly appending a
random frontier element until the frontier is empty.  The rng list
supplies the successive rand() draws. -/
def get_simulation_order (g : SGraph) (rng : List Nat) (path : List Op) : List Op :=
  simLoop g (g.succs.length + 1) rng path (simInitFrontier g path)

/- ============ reachability closure (for stating claim C2) ============ -/

/-- One closure step: add the successors of every current vertex. -/
def closureStep (g : SGraph) (cur : List Op) : List Op :=
  cur.foldl (fun acc v => (g.succsAt v).foldl addUniqueVal acc) cur

def closureN (g : SGraph) : Nat → List Op → List Op
  | 0, cur => cur
  | n + 1, cur => closureN g n (closureStep g cur)

/-- Vertices reachable from start, computed by iterating the closure
step once per adjacency entry. -/
def reachClosure (g : SGraph) : List Op :=
  closureN g g.succs.length [g.start]

/-- Well-formedness of the operation graph, as stated by the spec data
model: preds and succs are converse to each other, successor lists only
mention graph vertices, and a rank function witnesses acyclicity. -/
structure SGraphWF (g : SGraph) (rank : Op → Nat) : Prop where
  conv1 : ∀ e ∈ g.preds, ∀ p ∈ e.2, e.1 ∈ g.succsAt p
  conv2 : ∀ e ∈ g.succs, ∀ x ∈ e.2, e.1 ∈ g.predsAt x
  closed : ∀ e ∈ g.succs, ∀ x ∈ e.2, ∃ f ∈ g.succs, f.1 = x
  ranked : ∀ e ∈ g.preds, ∀ p ∈ e.2, rank p < rank e.1

/-- Number of graph vertices not yet in the path; the termination
measure of the playout loop. -/
def remCount (g : SGraph) (path : List Op) : Nat :=
  (((g.succs.map Prod.fst).dedup).filter (fun v => !path.contains v)).length

/-- Invariants of the playout loop relating the partial path and the
frontier: the path is duplicate-free and predecessor-closed in order and
holds graph vertices; the frontier is duplicate-free, disjoint from the
path, made of graph vertices whose predecessors are all in the path; and
every operation with a nonempty predecessor list fully inside the path
is in the path or in the frontier. -/
structure SimInv (g : SGraph) (path frontier : List Op) : Prop where
  pathNd : path.Nodup
  pathOrd : ∀ i (hi : i < path.length), ∀ p ∈ g.predsAt (path.get ⟨i, hi⟩), p ∈ path.take i
  pathKeys : ∀ u ∈ path, ∃ f ∈ g.succs, f.1 = u
  frNd : frontier.Nodup
  frNew : ∀ u ∈ frontier, u ∉ path
  frPreds : ∀ u ∈ frontier, ∀ p ∈ g.predsAt u, p ∈ path
  frKeys : ∀ u ∈ frontier, ∃ f ∈ g.succs, f.1 = u
  frComplete : ∀ u, g.predsAt u ≠ [] → (∀ p ∈ g.predsAt u, p ∈ path) →
    u ∈ path ∨ u ∈ frontier

/- ============ MCTS tree node (mcts_node.hpp, template Node) ============ -/

/-- Percentile summary returned by a benchmark run
(benchmarker.hpp, Benchmark::Result). -/
structure BenchResult where
  pct01 : Real
  pct10 : Real
  pct50 : Real
  pct90 : Real
  pct99 : Real
  stddev : Real

/-- MCTS search tree node of the template Node of mcts_node.hpp: the
operation, the expanded and fullyVisited flags, the playout count n, the
strategy state reduced to its times list (both reference strategies
store a sorted times vector, which is what is_leaf and expand read
through state_.times), and the owned children.  The non-owning parent
back-pointer of the C++ node is represented by the tree structure
itself, positions being lists of child indices. -/
inductive MNode where
  | node (op : Op) (expanded : Bool) (fullyVisited : Bool) (n : Nat)
      (times : List Real) (children : List MNode)

namespace MNode

def op : MNode → Op
  | node o _ _ _ _ _ => o

def expanded : MNode → Bool
  | node _ e _ _ _ _ => e

def fullyVisited : MNode → Bool
  | node _ _ fv _ _ _ => fv

def n : MNode → Nat
  | node _ _ _ k _ _ => k

def times : MNode → List Real
  | node _ _ _ _ ts _ => ts

def children : MNode → List MNode
  | node _ _ _ _ _ ch => ch

/-- is_leaf (mcts_node.hpp 33..43): no children, or some child without a
recorded playout. -/
def isLeaf (nd : MNode) : Bool :=
  nd.children.isEmpty || nd.children.any (fun c => c.times.isEmpty)

/-- is_terminal (mcts_node.hpp 350..353): the op has no successors in
the graph. -/
def isTerminal (g : SGraph) (nd : MNode) : Bool :=
  (g.succsAt nd.op).isEmpty

/-- Replace the times list of a node, the effect of Strategy::backprop
on the node state. -/
def withTimes : MNode → List Real → MNode
  | node o e fv k _ ch, ts => node o e fv k ts ch

/-- Replace one child. -/
def setChild : MNode → Nat → MNode → MNode
  | node o e fv k ts ch, i, c => node o e fv k ts (ch.set i c)

end MNode

/-- Node-local part of Node::backprop (mcts_node.hpp 59..77): increment
the playout count; when childless and expanded, or when every child is
fully visited, set fullyVisited; otherwise leave it. -/
def localUpdate : MNode → MNode
  | .node o e fv k ts ch =>
    if ch.isEmpty then
      if e then .node o e e (k + 1) ts ch
      else .node o e fv (k + 1) ts ch
    else
      if ch.all (fun c => c.fullyVisited) then .node o e true (k + 1) ts ch
      else .node o e fv (k + 1) ts ch

/-- Node at a position (list of child indices) in the tree. -/
def nodeAt : MNode → List Nat → Option MNode
  | nd, [] => some nd
  | nd, i :: rest =>
    match nd.children.get? i with
    | none => none
    | some c => nodeAt c rest

/-- A position is valid when it denotes a node. -/
def validPos (nd : MNode) (pos : List Nat) : Bool :=
  (nodeAt nd pos).isSome

/-- Node::backprop along the path from the root to the given position
(mcts_node.hpp 59..84): the node at the position updates itself, invokes
Strategy::backprop, and recurses to the parent, so the ancestors update
afterwards, each reading the already-updated child states; the strategy
is an abstract state-and-context update sb, invoked once per node with
the same result. -/
def backpropAt {Ctx : Type} (sb : Ctx → MNode → BenchResult → Ctx × List Real)
    (br : BenchResult) : MNode → List Nat → Ctx → MNode × Ctx
  | nd, [], ctx =>
    let nd' := localUpdate nd
    let p := sb ctx nd' br
    (nd'.withTimes p.2, p.1)
  | nd, i :: rest, ctx =>
    match nd.children.get? i with
    | none => (nd, ctx)
    | some c =>
      let q := backpropAt sb br c rest ctx
      let nd1 := nd.setChild i q.1
      let nd2 := localUpdate nd1
      let p := sb q.2 nd2 br
      (nd2.withTimes p.2, p.1)

/- ============ Node::expand (mcts_node.hpp 158..251) ============ -/

/-- Frontier computation of Node::expand (mcts_node.hpp 166..217): the
successors of every path op, deduplicated at insertion; the erase loops
that follow remove, order-preservingly, every op already in the path and
then every op with a predecessor outside the path, which the two filters
express. -/
def expandChildren (g : SGraph) (path : List Op) : List Op :=
  let frontier := path.foldl (fun acc op => (g.succsAt op).foldl addUniqueVal acc) []
  let frontier2 := frontier.filter (fun x => !path.contains x)
  frontier2.filter (fun x => (g.predsAt x).all (fun p => path.contains p))

/-- A fresh child node (the Node constructor, mcts_node.hpp 26..29). -/
def newChild (op : Op) : MNode :=
  .node op false false 0 [] []

/-- Child generation of Node::expand: when not yet expanded, append one
fresh child per frontier op of the node path and mark expanded. -/
def expandGen (g : SGraph) (path : List Op) (nd : MNode) : MNode :=
  if nd.expanded then nd
  else
    match nd with
    | .node o _ fv k ts ch =>
      .node o true fv k ts (ch ++ (expandChildren g path).map newChild)

/-- Child choice of Node::expand (mcts_node.hpp 231..250): the node
itself when childless (terminal), else the first child without a
recorded playout, else the fatal unreachable error (THROW_RUNTIME). -/
def chooseChild (nd : MNode) : Except String MNode :=
  if nd.children.isEmpty then .ok nd
  else
    match nd.children.find? (fun c => c.times.isEmpty) with
    | some c => .ok c
    | none => .error "unreachable"

/-- Node::expand: generate children from the node path, then choose. -/
def expandOp (g : SGraph) (path : List Op) (nd : MNode) : Except String MNode :=
  chooseChild (expandGen g path nd)

/- ============ Node::select (mcts_node.hpp 89..156) ============ -/

/-- UCT score of one child (mcts_node.hpp 98..126): the strategy
exploitation term plus the exploration term, keeping the branch
structure of the source: bottom (negative infinity) for fully visited
children, and the explicit 1-versus-n division branch.  The float
arithmetic of the source is idealized over the extended reals. -/
noncomputable def uctScore {Ctx : Type} (sel : Ctx → MNode → MNode → Real)
    (ctx : Ctx) (parent child : MNode) : EReal :=
  let exploit := sel ctx parent child
  let c := Real.sqrt 2
  let explore : EReal :=
    if child.fullyVisited then ⊥
    else if child.n < 1 then ((c * Real.sqrt (Real.log parent.n / 1) : Real) : EReal)
    else ((c * Real.sqrt (Real.log parent.n / child.n) : Real) : EReal)
  ((exploit : EReal) + explore)

open Classical in
/-- First-pass argmax scan of Node::select (mcts_node.hpp 130..141):
running maximum and its index, starting from negative infinity and
index 0, taking a new index only on strict improvement. -/
noncomputable def argmaxFold (ucts : List EReal) : EReal × Nat :=
  (List.range ucts.length).foldl
    (fun mi i => if mi.1 < ucts.getD i ⊥ then (ucts.getD i ⊥, i) else mi) (⊥, 0)

/-- The uct vector of the children of a node (mcts_node.hpp 98..126). -/
noncomputable def uctList {Ctx : Type} (sel : Ctx → MNode → MNode → Real)
    (ctx : Ctx) (nd : MNode) : List EReal :=
  nd.children.map (uctScore sel ctx nd)

/-- Maximum of the uct vector; the first-pass scan of the source
computes this value, proved below. -/
noncomputable def maxUct {Ctx : Type} (sel : Ctx → MNode → MNode → Real)
    (ctx : Ctx) (nd : MNode) : EReal :=
  (uctList sel ctx nd).foldl max ⊥

open Classical in
/-- Child indices whose uct ties the maximum (the choices vector of
mcts_node.hpp 142..147). -/
noncomputable def tieIndices {Ctx : Type} (sel : Ctx → MNode → MNode → Real)
    (ctx : Ctx) (nd : MNode) : List Nat :=
  (List.range (uctList sel ctx nd).length).filter
    (fun i => decide ((uctList sel ctx nd).getD i ⊥ = maxUct sel ctx nd))

open Classical in
/-- Node::select (mcts_node.hpp 89..156): return the node itself at a
leaf or terminal; otherwise score every child, take the maximum found by
the first-pass scan, collect the indices tied at that value, pick the
one selected by the random draw modulo the tie count, and recurse into
that child.  The rng list supplies the successive rand() draws. -/
noncomputable def selectNode {Ctx : Type} (sel : Ctx → MNode → MNode → Real)
    (ctx : Ctx) (g : SGraph) (rng : List Nat) (nd : MNode) : MNode :=
  if nd.isLeaf || nd.isTerminal g then nd
  else
    let m := (argmaxFold (uctList sel ctx nd)).1
    let choices := (List.range (uctList sel ctx nd).length).filter
      (fun i => decide ((uctList sel ctx nd).getD i ⊥ = m))
    let im := choices.getD ((rng.headD 0) % choices.length) 0
    if him : im < nd.children.length then
      selectNode sel ctx g rng.tail (nd.children.get ⟨im, him⟩)
    else nd
termination_by sizeOf nd
decreasing_by
  refine Nat.lt_trans (List.sizeOf_lt_of_mem (List.get_mem nd.children _ him)) ?_
  cases nd with
  | node o e fv k ts ch =>
    simp [MNode.children]

/- ============ driver MCTS (mcts.cpp 98..496) ============ -/

/-- Search context of the driver (mcts.cpp struct Context): running
minimum and maximum of observed medians. -/
structure DCtx where
  minT : Real
  maxT : Real

/-- Driver-local MCTS node (mcts.cpp struct Node): the operation, the
sorted times, the expanded flag and the children; no fullyVisited flag
and no separate playout counter (times.size() serves as n). -/
inductive DNode where
  | node (op : Op) (times : List Real) (expanded : Bool) (children : List DNode)

namespace DNode

def op : DNode → Op
  | node o _ _ _ => o

def times : DNode → List Real
  | node _ ts _ _ => ts

def expanded : DNode → Bool
  | node _ _ e _ => e

def children : DNode → List DNode
  | node _ _ _ ch => ch

/-- is_leaf of the driver node (mcts.cpp 112..122). -/
def isLeaf (nd : DNode) : Bool :=
  nd.children.isEmpty || nd.children.any (fun c => c.times.isEmpty)

/-- is_terminal of the driver node (mcts.cpp 401..403). -/
def isTerminal (g : SGraph) (nd : DNode) : Bool :=
  (g.succsAt nd.op).isEmpty

end DNode

/-- UCT score of the driver select (mcts.cpp 148..172): the normalized
range exploitation value (0.5 for an unplayed child), the constant
1.41, and plus infinity for a child with no playouts. -/
noncomputable def uctD (ctx : DCtx) (parent child : DNode) : EReal :=
  let v : Real :=
    if child.times.isEmpty then 0.5
    else (child.times.getLast?.getD 0 - child.times.headD 0) / (ctx.maxT - ctx.minT)
  if 0 < child.times.length then
    ((v + 1.41 * Real.sqrt (Real.log parent.times.length / child.times.length) : Real) : EReal)
  else ⊤

open Classical in
/-- Argmax index of the driver select (mcts.cpp 175..186): first-pass
scan only, no random tie break. -/
noncomputable def argmaxD (ucts : List EReal) : Nat :=
  ((List.range ucts.length).foldl
    (fun mi i => if mi.1 < ucts.getD i ⊥ then (ucts.getD i ⊥, i) else mi)
    ((⊥ : EReal), 0)).2

/-- Position (child-index path) selected by the driver Node::select
(mcts.cpp 143..191). -/
noncomputable def selectPosD (ctx : DCtx) (g : SGraph) (nd : DNode) : List Nat :=
  if nd.isLeaf || nd.isTerminal g then []
  else
    let im := argmaxD (nd.children.map (uctD ctx nd))
    match h : nd.children.get? im with
    | some c => im :: selectPosD ctx g c
    | none => []
termination_by sizeOf nd
decreasing_by
  have hmem : c ∈ nd.children := List.get?_mem h
  have h2 := List.sizeOf_lt_of_mem hmem
  cases nd with
  | node o ts e ch =>
    simp [DNode.children] at h2
    simp
    omega

/-- Frontier of the driver Node::expand (mcts.cpp 202..249): successors
of the path ops (no deduplication at insertion in this version), minus
ops already done, minus ops with a predecessor outside the path. -/
def expandChildrenD (g : SGraph) (path : List Op) : List Op :=
  let frontier := path.foldl (fun acc op => acc ++ g.succsAt op) []
  let f2 := frontier.filter (fun x => !path.contains x)
  f2.filter (fun x => (g.predsAt x).all (fun p => path.contains p))

/-- A fresh driver child (mcts.cpp 108). -/
def newChildD (op : Op) : DNode :=
  .node op [] false []

/-- Apply the driver Node::expand at a position: the terminal guard of
mcts.cpp 197..199 returns the node unchanged; otherwise, when not yet
expanded, one child per frontier op of the node path (node op first,
ancestors after, as the C++ path is built) is appended and the node is
marked expanded. -/
def expandAtD (g : SGraph) : DNode → List Nat → List Op → DNode
  | nd, [], path =>
    if nd.isTerminal g then nd
    else if nd.expanded then nd
    else
      match nd with
      | .node o ts _ ch =>
        .node o ts true (ch ++ (expandChildrenD g (o :: path)).map newChildD)
  | nd, i :: rest, path =>
    match nd.children.get? i with
    | none => nd
    | some c =>
      match nd with
      | .node o ts e ch => .node o ts e (ch.set i (expandAtD g c rest (o :: path)))

/-- Node denoted by a position in a driver tree. -/
def nodeAtD : DNode → List Nat → Option DNode
  | nd, [] => some nd
  | nd, i :: rest =>
    match nd.children.get? i with
    | none => none
    | some c => nodeAtD c rest

/-- Index of the child returned by the driver expand (mcts.cpp
263..278): none when childless (the node itself is returned), else the
first child with no recorded playout, else the fatal unreachable
error. -/
def chooseIdxD (nd : DNode) : Except String (Option Nat) :=
  if nd.children.isEmpty then .ok none
  else
    match nd.children.findIdx? (fun c => c.times.isEmpty) with
    | some i => .ok (some i)
    | none => .error "unreachable"

/-- Ops along a position, node of the root first. -/
def opsAlongD : DNode → List Nat → List Op
  | nd, [] => [nd.op]
  | nd, i :: rest =>
    match nd.children.get? i with
    | none => [nd.op]
    | some c => nd.op :: opsAlongD c rest

/-- Total number of recorded playout times in a driver tree. -/
def timesTotalD : DNode → Nat
  | .node _ ts _ ch => ts.length + (ch.attach.map (fun c => timesTotalD c.1)).sum
decreasing_by
  have := List.sizeOf_lt_of_mem c.2
  simp
  omega

/-- One rank-0 iteration of the driver loop mcts (mcts.cpp 441..484):
select from the root, expand the selected node, take the first unplayed
child, compute its random simulation order, broadcast it (the identity
on rank 0).  The benchmark call and the backprop block that the
specification describes are absent from the compiled code: the
benchmark comment at mcts.cpp 465 is followed by an empty statement and
the block holding ctx.minT / ctx.maxT updates and child.backprop(med)
sits between preprocessor-disabled markers (mcts.cpp 468..483), so the
iteration ends after the broadcast and the context and all recorded
times are returned unchanged. -/
noncomputable def mctsIterationR0 (g : SGraph) (ctx : DCtx) (root : DNode)
    (rng : List Nat) : Except String (DCtx × DNode × List Op) :=
  let selPos := selectPosD ctx g root
  let root' := expandAtD g root selPos []
  match nodeAtD root' selPos with
  | none => .error "internal"
  | some selected =>
    match chooseIdxD selected with
    | .error e => .error e
    | .ok ci =>
      let childPos := selPos ++ (match ci with | none => [] | some i => [i])
      let order := get_simulation_order g rng (opsAlongD root' childPos)
      match mpi_bcast 0 order order with
      | .error e => .error e
      | .ok order' => .ok (ctx, root', order')

/-- A concrete two-vertex graph (a before b) used to evaluate the
selection theorem on a closed instance. -/
def selGraphEx : SGraph :=
  ⟨[(Op.cpuOp "a", [Op.cpuOp "b"])], [(Op.cpuOp "b", [Op.cpuOp "a"])], Op.cpuOp "a"⟩

/-- A concrete expanded search-tree root over selGraphEx: one child
holding a recorded playout, so the root is neither a leaf nor terminal. -/
def selTreeEx : MNode :=
  MNode.node (Op.cpuOp "a") true false 1 []
    [MNode.node (Op.cpuOp "b") false false 1 [(0 : Real)] []]

theorem splitNames_names (l : List String) :
    splitNames (l.map String.length) ((l.map String.toList).flatten) = l := by
  induction l with
  | nil => rfl
  | cons s rest ih =>
    have hlen : s.length = s.toList.length := rfl
    simp only [List.map_cons, List.flatten_cons, splitNames]
    rw [hlen, List.take_left, List.drop_left]
    refine congrArg₂ _ ?_ ih
    rfl

theorem mpi_bcast_names (rank : Nat) (rootOrder localOrder : List Op) (h : rank ≠ 0) :
    mpi_bcast rank rootOrder localOrder
      = bcastRecv localOrder (rootOrder.map Op.name) := by
  have : splitNames (rootOrder.map (fun op => op.name.length)) (flatNames rootOrder)
      = rootOrder.map Op.name := by
    have := splitNames_names (rootOrder.map Op.name)
    simpa [flatNames, Function.comp] using this
  simp [mpi_bcast, h, this]

/- ===================== C1: frontier legality ===================== -/

theorem mem_foldl_of_step {β : Type} (F : List Op → β → List Op) (P : β → Op → Prop)
    (hF : ∀ acc b x, x ∈ F acc b → x ∈ acc ∨ P b x) :
    ∀ (l : List β) (acc : List Op) (x : Op),
      x ∈ l.foldl F acc → x ∈ acc ∨ ∃ b ∈ l, P b x := by
  intro l
  induction l with
  | nil => intro acc x hx; exact Or.inl hx
  | cons b rest ih =>
    intro acc x hx
    rcases ih (F acc b) x hx with hacc | ⟨b', hb', hP⟩
    · rcases hF acc b x hacc with h | h
      · exact Or.inl h
      · exact Or.inr ⟨b, List.mem_cons_self b rest, h⟩
    · exact Or.inr ⟨b', List.mem_cons_of_mem b hb', hP⟩

theorem mem_addUniqueVal (acc : List Op) (b x : Op) (h : x ∈ addUniqueVal acc b) :
    x ∈ acc ∨ x = b := by
  unfold addUniqueVal at h
  split at h
  · exact Or.inl h
  · rcases List.mem_append.mp h with h | h
    · exact Or.inl h
    · exact Or.inr (List.mem_singleton.mp h)

theorem mem_keep_uniques (l : List Op) (x : Op) (h : x ∈ keep_uniques l) : x ∈ l := by
  unfold keep_uniques at h
  have := mem_foldl_of_step
    (fun acc o => if acc.any (fun y => y.eq o) then acc else acc ++ [o])
    (fun o x => x = o) ?_ l [] x h
  · rcases this with h' | ⟨b, hb, rfl⟩
    · cases h'
    · exact hb
  · intro acc b y hy
    dsimp at hy
    split at hy
    · exact Or.inl hy
    · rcases List.mem_append.mp hy with h' | h'
      · exact Or.inl h'
      · exact Or.inr (List.mem_singleton.mp h')

theorem keep_uniques_pairwise (l : List Op) :
    (keep_uniques l).Pairwise (fun a b => a.eq b = false) := by
  unfold keep_uniques
  suffices h : ∀ (l acc : List Op), acc.Pairwise (fun a b => a.eq b = false) →
      (l.foldl (fun acc o => if acc.any (fun y => y.eq o) then acc else acc ++ [o]) acc).Pairwise
        (fun a b => a.eq b = false) from h l [] List.Pairwise.nil
  intro l
  induction l with
  | nil => intro acc hacc; exact hacc
  | cons o rest ih =>
    intro acc hacc
    refine ih _ ?_
    dsimp
    split
    · exact hacc
    · rename_i hany
      have hf : (acc.any fun y => y.eq o) = false := by
        revert hany
        cases acc.any fun y => y.eq o <;> simp
      rw [List.pairwise_append]
      refine ⟨hacc, List.pairwise_singleton _ _, ?_⟩
      intro a ha b hb
      rw [List.mem_singleton] at hb
      subst hb
      exact Bool.eq_false_iff.mpr (List.any_eq_false.mp hf a ha)

theorem adjFind_entry (m : List (Op × List Op)) (k : Op) (l : List Op)
    (h : adjFind m k = some l) : ∃ e ∈ m, e.1 = k ∧ e.2 = l := by
  unfold adjFind at h
  cases hf : m.find? (fun e => e.1 == k) with
  | none => rw [hf] at h; cases h
  | some e =>
    rw [hf] at h
    refine ⟨e, List.mem_of_find?_eq_some hf, ?_, by cases h; rfl⟩
    have := List.find?_some hf
    exact eq_of_beq this

theorem adjFind_isSome_of_key (m : List (Op × List Op)) (k : Op)
    (h : ∃ f ∈ m, f.1 = k) : ∃ l, adjFind m k = some l := by
  obtain ⟨f, hf, hk⟩ := h
  unfold adjFind
  cases hfind : m.find? (fun e => e.1 == k) with
  | none =>
    have := List.find?_eq_none.mp hfind f hf
    simp [hk] at this
  | some e => exact ⟨e.2, rfl⟩

theorem succsFindOrUnbound_entry (g : SGraph) (c : Op) (ss : List Op)
    (h : g.succsFindOrUnbound c = some ss) : ∃ e ∈ g.succs, e.2 = ss := by
  unfold SGraph.succsFindOrUnbound at h
  cases hf : adjFind g.succs c with
  | some l =>
    rw [hf] at h
    cases h
    obtain ⟨e, he, _, h2⟩ := adjFind_entry g.succs c ss hf
    exact ⟨e, he, h2⟩
  | none =>
    rw [hf] at h
    cases c with
    | boundGpuOp i n s =>
      obtain ⟨e, he, _, h2⟩ := adjFind_entry g.succs (.gpuOp i n) ss h
      exact ⟨e, he, h2⟩
    | cpuOp n => cases h
    | gpuOp i n => cases h
    | streamWait n a b e => cases h
    | streamSync n s => cases h
    | cudaEventRecord n e s => cases h
    | cudaStreamWaitEvent n s e => cases h
    | cudaEventSync n e => cases h

theorem syncsForPred_isSync (completed : List Op) (v p : Op) :
    ∀ x ∈ syncsForPred completed v p, x.isSync = true := by
  have hall : (syncsForPred completed v p).all Op.isSync = true := by
    unfold syncsForPred
    repeat' split
    all_goals rfl
  exact fun x hx => List.all_eq_true.mp hall x hx

theorem make_syncs_isSync (v : Op) (g : SGraph) (completed : List Op) :
    ∀ x ∈ make_syncs v g completed, x.isSync = true := by
  intro x hx
  unfold make_syncs at hx
  have := mem_foldl_of_step
    (fun acc p => if predSynced completed v p then acc else acc ++ syncsForPred completed v p)
    (fun p x => x ∈ syncsForPred completed v p) ?_ (g.predsFindOrUnbound v) [] x hx
  · rcases this with h | ⟨p, _, hp⟩
    · cases h
    · exact syncsForPred_isSync completed v p x hp
  · intro acc p y hy
    dsimp at hy
    split at hy
    · exact Or.inl hy
    · rcases List.mem_append.mp hy with h | h
      · exact Or.inl h
      · exact Or.inr h

theorem predsFindOrUnbound_variation (g : SGraph) (plat : Plat) (candidate bound : Op)
    (hdual : ∀ e ∈ g.preds, ∀ f ∈ g.preds, e.1.unbound ≠ f.1 ∨ e.1 = f.1)
    (hkey : ∃ f ∈ g.preds, f.1 = candidate)
    (hb : bound ∈ make_platform_variations plat candidate) :
    g.predsFindOrUnbound bound = g.predsAt candidate := by
  obtain ⟨lc, hlc⟩ := adjFind_isSome_of_key g.preds candidate hkey
  cases candidate with
  | gpuOp i n =>
    unfold make_platform_variations at hb
    obtain ⟨s, _, rfl⟩ := List.mem_map.mp hb
    unfold SGraph.predsFindOrUnbound
    cases hfb : adjFind g.preds (Op.boundGpuOp i n s) with
    | some lb =>
      obtain ⟨e, he, he1, _⟩ := adjFind_entry g.preds (.boundGpuOp i n s) lb hfb
      obtain ⟨f, hf, hf1⟩ := hkey
      rcases hdual e he f hf with hne | heq
      · exact absurd (by rw [he1, hf1]; rfl) hne
      · rw [he1, hf1] at heq; cases heq
    | none => simp [SGraph.predsAt]
  | cpuOp n =>
    unfold make_platform_variations at hb
    rw [List.mem_singleton] at hb
    subst hb
    unfold SGraph.predsFindOrUnbound SGraph.predsAt
    rw [hlc]
    simp [adjAt, hlc]
  | boundGpuOp i n s =>
    unfold make_platform_variations at hb
    rw [List.mem_singleton] at hb
    subst hb
    unfold SGraph.predsFindOrUnbound SGraph.predsAt
    rw [hlc]
    simp [adjAt, hlc]
  | streamWait n a b e =>
    unfold make_platform_variations at hb
    rw [List.mem_singleton] at hb
    subst hb
    unfold SGraph.predsFindOrUnbound SGraph.predsAt
    rw [hlc]
    simp [adjAt, hlc]
  | streamSync n s =>
    unfold make_platform_variations at hb
    rw [List.mem_singleton] at hb
    subst hb
    unfold SGraph.predsFindOrUnbound SGraph.predsAt
    rw [hlc]
    simp [adjAt, hlc]
  | cudaEventRecord n e s =>
    unfold make_platform_variations at hb
    rw [List.mem_singleton] at hb
    subst hb
    unfold SGraph.predsFindOrUnbound SGraph.predsAt
    rw [hlc]
    simp [adjAt, hlc]
  | cudaStreamWaitEvent n s e =>
    unfold make_platform_variations at hb
    rw [List.mem_singleton] at hb
    subst hb
    unfold SGraph.predsFindOrUnbound SGraph.predsAt
    rw [hlc]
    simp [adjAt, hlc]
  | cudaEventSync n e =>
    unfold make_platform_variations at hb
    rw [List.mem_singleton] at hb
    subst hb
    unfold SGraph.predsFindOrUnbound SGraph.predsAt
    rw [hlc]
    simp [adjAt, hlc]

/-- Claim C1: every operation in the frontier returned by get_frontier is
either a synchronization operation, or all its predecessors in G (by
identity-or-unbound lookup) are in the completed sequence under
contains_unbound and it is synced; and the frontier holds no value-equal
duplicates.  The hypotheses state graph well-formedness: every operation
in a successor list is a predecessor key, and the graph does not hold
both a bound operation and its unbound form as vertices. -/
theorem c1_frontier_legality (plat : Plat) (g : SGraph) (completed : List Op)
    (hdual : ∀ e ∈ g.preds, ∀ f ∈ g.preds, e.1.unbound ≠ f.1 ∨ e.1 = f.1)
    (hsucc : ∀ e ∈ g.succs, ∀ x ∈ e.2, ∃ f ∈ g.preds, f.1 = x) :
    (∀ v ∈ get_frontier plat g completed,
      v.isSync = true
      ∨ ((g.predsFindOrUnbound v).all (containsUnbound completed) = true
        ∧ is_synced v g completed = true))
    ∧ (get_frontier plat g completed).Pairwise (fun a b => a.eq b = false) := by
  constructor
  · intro v hv
    unfold get_frontier at hv
    have hv' := mem_keep_uniques _ v hv
    have houter := mem_foldl_of_step
      (fun acc candidate =>
        (make_platform_variations plat candidate).foldl (fun acc2 bound =>
          if is_synced bound g completed then acc2 ++ [bound]
          else acc2 ++ make_syncs bound g completed) acc)
      (fun candidate x => ∃ bound ∈ make_platform_variations plat candidate,
        (is_synced bound g completed = true ∧ x = bound)
        ∨ (is_synced bound g completed = false ∧ x ∈ make_syncs bound g completed))
      ?_ _ [] v hv'
    · rcases houter with h | ⟨candidate, hcand, bound, hbound, hcase⟩
      · cases h
      · -- candidate passed the filter
        have hcand' := List.mem_filter.mp hcand
        have hgather := mem_foldl_of_step
          (fun acc cOp =>
            match g.succsFindOrUnbound cOp with
            | some succs => succs.foldl addUniqueVal acc
            | none => acc)
          (fun cOp x => ∃ ss, g.succsFindOrUnbound cOp = some ss ∧ x ∈ ss)
          ?_ completed [] candidate hcand'.1
        · rcases hgather with h | ⟨c, _, ss, hss, hmem⟩
          · cases h
          · obtain ⟨e, he, he2⟩ := succsFindOrUnbound_entry g c ss hss
            have hkey := hsucc e he candidate (he2 ▸ hmem)
            have hpred := predsFindOrUnbound_variation g plat candidate bound hdual hkey hbound
            rcases hcase with ⟨hsy, rfl⟩ | ⟨_, hin⟩
            · refine Or.inr ⟨?_, hsy⟩
              rw [hpred]
              have := hcand'.2
              rw [Bool.and_eq_true] at this
              exact this.2
            · exact Or.inl (make_syncs_isSync bound g completed v hin)
        · intro acc cOp x hx
          dsimp at hx
          cases hso : g.succsFindOrUnbound cOp with
          | some succs =>
            rw [hso] at hx
            rcases mem_foldl_of_step addUniqueVal (fun b x => x = b)
              mem_addUniqueVal succs acc x hx with h | ⟨b, hb, rfl⟩
            · exact Or.inl h
            · exact Or.inr ⟨succs, hso, hb⟩
          | none =>
            rw [hso] at hx
            exact Or.inl hx
    · intro acc candidate x hx
      have hinner := mem_foldl_of_step
        (fun acc2 bound =>
          if is_synced bound g completed then acc2 ++ [bound]
          else acc2 ++ make_syncs bound g completed)
        (fun bound x =>
          (is_synced bound g completed = true ∧ x = bound)
          ∨ (is_synced bound g completed = false ∧ x ∈ make_syncs bound g completed))
        ?_ (make_platform_variations plat candidate) acc x hx
      · rcases hinner with h | ⟨b, hb, hP⟩
        · exact Or.inl h
        · exact Or.inr ⟨b, hb, hP⟩
      · intro acc2 bound y hy
        dsimp at hy
        cases hsy : is_synced bound g completed with
        | true =>
          rw [hsy] at hy
          simp only [if_true] at hy
          rcases List.mem_append.mp hy with h | h
          · exact Or.inl h
          · exact Or.inr (Or.inl ⟨hsy, List.mem_singleton.mp h⟩)
        | false =>
          rw [hsy] at hy
          simp only [Bool.false_eq_true, if_false] at hy
          rcases List.mem_append.mp hy with h | h
          · exact Or.inl h
          · exact Or.inr (Or.inr ⟨hsy, h⟩)
  · exact keep_uniques_pairwise _

/-- Witness for the frontier legality theorem on a bound two-operation
chain with one completed operation. -/
theorem c1_frontier_legality_witness :
    (∀ e ∈ (SGraph.mk [(Op.cpuOp "a", [Op.cpuOp "b"]), (Op.cpuOp "b", [])]
        [(Op.cpuOp "a", []), (Op.cpuOp "b", [Op.cpuOp "a"])] (Op.cpuOp "a")).preds,
      ∀ f ∈ (SGraph.mk [(Op.cpuOp "a", [Op.cpuOp "b"]), (Op.cpuOp "b", [])]
        [(Op.cpuOp "a", []), (Op.cpuOp "b", [Op.cpuOp "a"])] (Op.cpuOp "a")).preds,
      e.1.unbound ≠ f.1 ∨ e.1 = f.1)
    ∧ (∀ v ∈ get_frontier (Plat.mk [0])
        (SGraph.mk [(Op.cpuOp "a", [Op.cpuOp "b"]), (Op.cpuOp "b", [])]
          [(Op.cpuOp "a", []), (Op.cpuOp "b", [Op.cpuOp "a"])] (Op.cpuOp "a"))
        [Op.cpuOp "a"],
      v.isSync = true
      ∨ (((SGraph.mk [(Op.cpuOp "a", [Op.cpuOp "b"]), (Op.cpuOp "b", [])]
          [(Op.cpuOp "a", []), (Op.cpuOp "b", [Op.cpuOp "a"])]
          (Op.cpuOp "a")).predsFindOrUnbound v).all (containsUnbound [Op.cpuOp "a"]) = true
        ∧ is_synced v (SGraph.mk [(Op.cpuOp "a", [Op.cpuOp "b"]), (Op.cpuOp "b", [])]
          [(Op.cpuOp "a", []), (Op.cpuOp "b", [Op.cpuOp "a"])] (Op.cpuOp "a"))
          [Op.cpuOp "a"] = true)) := by
  refine ⟨by decide, (c1_frontier_legality (Plat.mk [0]) _ [Op.cpuOp "a"]
    (by decide) (by decide)).1⟩

/- ===================== C2: playout is a topological sort ===================== -/

theorem predsAt_mem_entry (g : SGraph) (u p : Op) (hp : p ∈ g.predsAt u) :
    ∃ e ∈ g.preds, e.1 = u ∧ p ∈ e.2 := by
  unfold SGraph.predsAt adjAt at hp
  cases hf : adjFind g.preds u with
  | none => rw [hf] at hp; cases hp
  | some l =>
    rw [hf] at hp
    obtain ⟨e, he, he1, he2⟩ := adjFind_entry g.preds u l hf
    exact ⟨e, he, he1, he2 ▸ hp⟩

theorem succsAt_mem_entry (g : SGraph) (u x : Op) (hx : x ∈ g.succsAt u) :
    ∃ e ∈ g.succs, e.1 = u ∧ x ∈ e.2 := by
  unfold SGraph.succsAt adjAt at hx
  cases hf : adjFind g.succs u with
  | none => rw [hf] at hx; cases hx
  | some l =>
    rw [hf] at hx
    obtain ⟨e, he, he1, he2⟩ := adjFind_entry g.succs u l hf
    exact ⟨e, he, he1, he2 ▸ hx⟩

theorem wf_conv1 {g : SGraph} {rank : Op → Nat} (hwf : SGraphWF g rank) :
    ∀ u p, p ∈ g.predsAt u → u ∈ g.succsAt p := by
  intro u p hp
  obtain ⟨e, he, he1, he2⟩ := predsAt_mem_entry g u p hp
  exact he1 ▸ hwf.conv1 e he p he2

theorem wf_conv2 {g : SGraph} {rank : Op → Nat} (hwf : SGraphWF g rank) :
    ∀ p x, x ∈ g.succsAt p → p ∈ g.predsAt x := by
  intro p x hx
  obtain ⟨e, he, he1, he2⟩ := succsAt_mem_entry g p x hx
  exact he1 ▸ hwf.conv2 e he x he2

theorem wf_closed {g : SGraph} {rank : Op → Nat} (hwf : SGraphWF g rank) :
    ∀ p x, x ∈ g.succsAt p → ∃ f ∈ g.succs, f.1 = x := by
  intro p x hx
  obtain ⟨e, he, _, he2⟩ := succsAt_mem_entry g p x hx
  exact hwf.closed e he x he2

theorem wf_rank {g : SGraph} {rank : Op → Nat} (hwf : SGraphWF g rank) :
    ∀ u p, p ∈ g.predsAt u → rank p < rank u := by
  intro u p hp
  obtain ⟨e, he, he1, he2⟩ := predsAt_mem_entry g u p hp
  exact he1 ▸ hwf.ranked e he p he2

theorem foldl_mono_of_step {β : Type} (F : List Op → β → List Op)
    (hF : ∀ acc b, acc ⊆ F acc b) :
    ∀ (l : List β) (acc : List Op), acc ⊆ l.foldl F acc := by
  intro l
  induction l with
  | nil => intro acc; exact List.Subset.refl acc
  | cons b rest ih =>
    intro acc
    exact (hF acc b).trans (ih (F acc b))

theorem addEligibles_mono (g : SGraph) (path : List Op) (succs acc : List Op) :
    acc ⊆ addEligibles g path acc succs := by
  unfold addEligibles
  refine foldl_mono_of_step _ ?_ succs acc
  intro acc c
  split
  · exact List.subset_append_left _ _
  · exact List.Subset.refl _

theorem addEligibles_append (g : SGraph) (path : List Op) :
    ∀ (succs acc : List Op), ∃ ext, addEligibles g path acc succs = acc ++ ext := by
  intro succs
  induction succs with
  | nil => intro acc; exact ⟨[], by simp [addEligibles]⟩
  | cons c rest ih =>
    intro acc
    show ∃ ext,
      addEligibles g path (if simEligible g path acc c then acc ++ [c] else acc) rest
        = acc ++ ext
    split
    · obtain ⟨ext, hext⟩ := ih (acc ++ [c])
      exact ⟨[c] ++ ext, by rw [hext, List.append_assoc]⟩
    · exact ih acc

theorem simEligible_iff (g : SGraph) (path f : List Op) (c : Op) :
    simEligible g path f c = true
      ↔ (c ∉ f ∧ c ∉ path) ∧ ∀ p ∈ g.predsAt c, p ∈ path := by
  unfold simEligible
  simp

theorem simEligible_true {g : SGraph} {path f : List Op} {c : Op}
    (h : simEligible g path f c = true) :
    c ∉ f ∧ c ∉ path ∧ ∀ p ∈ g.predsAt c, p ∈ path := by
  have := (simEligible_iff g path f c).mp h
  exact ⟨this.1.1, this.1.2, this.2⟩

theorem simEligible_of (g : SGraph) (path f : List Op) (c : Op)
    (h1 : c ∉ f) (h2 : c ∉ path) (h3 : ∀ p ∈ g.predsAt c, p ∈ path) :
    simEligible g path f c = true :=
  (simEligible_iff g path f c).mpr ⟨⟨h1, h2⟩, h3⟩

theorem addEligibles_mem (g : SGraph) (path : List Op) :
    ∀ (succs acc : List Op) (x : Op), x ∈ addEligibles g path acc succs →
      x ∈ acc ∨ (x ∈ succs ∧ x ∉ path ∧ ∀ p ∈ g.predsAt x, p ∈ path) := by
  intro succs
  induction succs with
  | nil => intro acc x hx; exact Or.inl hx
  | cons c rest ih =>
    intro acc x hx
    have hx' : x ∈ addEligibles g path
        (if simEligible g path acc c then acc ++ [c] else acc) rest := hx
    rcases ih _ x hx' with h | ⟨h1, h2, h3⟩
    · by_cases he : simEligible g path acc c = true
      · rw [if_pos he] at h
        rcases List.mem_append.mp h with h' | h'
        · exact Or.inl h'
        · rw [List.mem_singleton] at h'
          subst h'
          obtain ⟨_, hb, hc⟩ := simEligible_true he
          exact Or.inr ⟨List.mem_cons_self _ _, hb, hc⟩
      · rw [if_neg he] at h
        exact Or.inl h
    · exact Or.inr ⟨List.mem_cons_of_mem c h1, h2, h3⟩

theorem addEligibles_processed (g : SGraph) (path : List Op) :
    ∀ (succs acc : List Op) (u : Op), u ∈ succs → u ∉ path →
      (∀ p ∈ g.predsAt u, p ∈ path) → u ∈ addEligibles g path acc succs := by
  intro succs
  induction succs with
  | nil => intro acc u hu; cases hu
  | cons c rest ih =>
    intro acc u hu hnp hpd
    show u ∈ addEligibles g path (if simEligible g path acc c then acc ++ [c] else acc) rest
    rcases List.mem_cons.mp hu with rfl | hu'
    · by_cases hin : u ∈ acc
      · have : u ∈ (if simEligible g path acc u then acc ++ [u] else acc) := by
          split
          · exact List.mem_append_left _ hin
          · exact hin
        exact addEligibles_mono g path rest _ this
      · have he : simEligible g path acc u = true := simEligible_of g path acc u hin hnp hpd
        rw [if_pos he]
        exact addEligibles_mono g path rest _ (List.mem_append_right _ (List.mem_singleton_self u))
    · exact ih _ u hu' hnp hpd

theorem addEligibles_nodup (g : SGraph) (path : List Op) :
    ∀ (succs acc : List Op), acc.Nodup → (addEligibles g path acc succs).Nodup := by
  intro succs
  induction succs with
  | nil => intro acc h; exact h
  | cons c rest ih =>
    intro acc h
    have goal : (addEligibles g path (if simEligible g path acc c then acc ++ [c] else acc) rest).Nodup → (addEligibles g path acc (c :: rest)).Nodup := fun t => t
    refine goal (ih _ ?_)
    split
    · rename_i he
      exact List.Nodup.append h (List.nodup_singleton c)
        (List.disjoint_singleton.mpr (simEligible_true he).1)
    · exact h

theorem addEligibles_count (g : SGraph) (path : List Op) :
    ∀ (succs acc : List Op) (a : Op), a ∈ acc →
      (addEligibles g path acc succs).count a = acc.count a := by
  intro succs
  induction succs with
  | nil => intro acc a _; rfl
  | cons c rest ih =>
    intro acc a ha
    have goal : ∀ m, (addEligibles g path (if simEligible g path acc c then acc ++ [c] else acc) rest).count a = m → (addEligibles g path acc (c :: rest)).count a = m := fun m t => t
    refine goal _ ?_
    by_cases he : simEligible g path acc c = true
    · rw [if_pos he]
      have hne : c ≠ a := fun h => (simEligible_true he).1 (h ▸ ha)
      have : (acc ++ [c]).count a = acc.count a := by
        rw [List.count_append, List.count_singleton]
        simp [hne]
      rw [ih (acc ++ [c]) a (List.mem_append_left _ ha), this]
    · rw [if_neg he]
      exact ih acc a ha

theorem simInv_init (g : SGraph) (rank : Op → Nat) (path : List Op)
    (hwf : SGraphWF g rank) (hnd : path.Nodup)
    (hord : ∀ i (hi : i < path.length), ∀ p ∈ g.predsAt (path.get ⟨i, hi⟩), p ∈ path.take i)
    (hkeys : ∀ u ∈ path, ∃ f ∈ g.succs, f.1 = u) :
    SimInv g path (simInitFrontier g path) := by
  have hmem : ∀ x ∈ simInitFrontier g path,
      (∃ p ∈ path, x ∈ g.succsAt p) ∧ x ∉ path ∧ ∀ q ∈ g.predsAt x, q ∈ path := by
    intro x hx
    unfold simInitFrontier at hx
    have hstep : ∀ (acc : List Op) (b : Op) (y : Op),
        y ∈ addEligibles g path acc (g.succsAt b) →
        y ∈ acc ∨ (y ∈ g.succsAt b ∧ y ∉ path ∧ ∀ q ∈ g.predsAt y, q ∈ path) := by
      intro acc b y hy
      exact addEligibles_mem g path _ acc y hy
    have := mem_foldl_of_step (fun f op => addEligibles g path f (g.succsAt op))
      (fun op x => x ∈ g.succsAt op ∧ x ∉ path ∧ ∀ q ∈ g.predsAt x, q ∈ path)
      hstep path [] x hx
    rcases this with h | ⟨p, hp, h1, h2, h3⟩
    · cases h
    · exact ⟨⟨p, hp, h1⟩, h2, h3⟩
  refine ⟨hnd, hord, hkeys, ?_, fun u hu => (hmem u hu).2.1, fun u hu => (hmem u hu).2.2,
    ?_, ?_⟩
  · unfold simInitFrontier
    have haux : ∀ (l acc : List Op), acc.Nodup →
        (l.foldl (fun f op => addEligibles g path f (g.succsAt op)) acc).Nodup := by
      intro l
      induction l with
      | nil => intro acc h; exact h
      | cons a rest ih => intro acc h; exact ih _ (addEligibles_nodup g path _ acc h)
    exact haux path [] List.nodup_nil
  · intro u hu
    obtain ⟨⟨p, _, hs⟩, _, _⟩ := hmem u hu
    exact wf_closed hwf p u hs
  · intro u hne hsub
    obtain ⟨p, hp⟩ := List.exists_mem_of_ne_nil _ hne
    have hppath : p ∈ path := hsub p hp
    have hsucc : u ∈ g.succsAt p := wf_conv1 hwf u p hp
    by_cases hin : u ∈ path
    · exact Or.inl hin
    · refine Or.inr ?_
      unfold simInitFrontier
      have haux : ∀ (l acc : List Op), p ∈ l →
          u ∈ l.foldl (fun f op => addEligibles g path f (g.succsAt op)) acc := by
        intro l
        induction l with
        | nil => intro acc h; cases h
        | cons a rest ih =>
          intro acc h
          rcases List.mem_cons.mp h with rfl | h'
          · have hstep : u ∈ addEligibles g path acc (g.succsAt p) :=
              addEligibles_processed g path _ acc u hsucc hin hsub
            exact foldl_mono_of_step _
              (fun acc2 b => addEligibles_mono g path (g.succsAt b) acc2) rest _ hstep
          · exact ih _ h'
      exact haux path [] hppath

theorem simInv_step (g : SGraph) (rank : Op → Nat) (path frontier : List Op) (r : Nat)
    (hwf : SGraphWF g rank) (hne : frontier ≠ [])
    (inv : SimInv g path frontier) :
    SimInv g (simStep g path frontier r).1 (simStep g path frontier r).2
    ∧ remCount g (simStep g path frontier r).1 < remCount g path := by
  have hlen : 0 < frontier.length := List.length_pos.mpr hne
  have hii : r % frontier.length < frontier.length := Nat.mod_lt r hlen
  set ii := r % frontier.length with hii_def
  set op := frontier.getD ii (.cpuOp "") with hop_def
  have hopget : op = frontier.get ⟨ii, hii⟩ := by
    rw [hop_def, List.getD_eq_getElem frontier _ hii]
    rfl
  have hopmem : op ∈ frontier := by
    rw [hopget]
    exact List.get_mem frontier ii hii
  have hopnew : op ∉ path := inv.frNew op hopmem
  have hoppreds : ∀ p ∈ g.predsAt op, p ∈ path := inv.frPreds op hopmem
  have hopkeys := inv.frKeys op hopmem
  set path' := path ++ [op] with hpathdef
  set fr' := addEligibles g path' frontier (g.succsAt op) with hfrdef
  have hfst : (simStep g path frontier r).1 = path' := rfl
  have hsnd : (simStep g path frontier r).2 = fr'.eraseIdx ii := rfl
  obtain ⟨ext, hext⟩ := addEligibles_append g path' (g.succsAt op) frontier
  rw [← hfrdef] at hext
  have hii' : ii < fr'.length := by
    rw [hext, List.length_append]
    omega
  have hfr'ii : fr'.get ⟨ii, hii'⟩ = op := by
    have h2 : fr'.get ⟨ii, hii'⟩
        = (frontier ++ ext).get ⟨ii, by rw [← hext]; exact hii'⟩ :=
      List.get_of_eq hext ⟨ii, hii'⟩
    rw [h2, List.get_append ii hii, ← hopget]
  have hcount1 : fr'.count op = 1 := by
    rw [hfrdef, addEligibles_count g path' (g.succsAt op) frontier op hopmem]
    exact List.count_eq_one_of_mem inv.frNd hopmem
  have hdecomp : fr' = fr'.take ii ++ op :: fr'.drop (ii + 1) := by
    conv_lhs => rw [← List.take_append_drop ii fr']
    rw [List.drop_eq_getElem_cons hii']
    have : fr'[ii] = op := hfr'ii
    rw [this]
  have herase : fr'.eraseIdx ii = fr'.take ii ++ fr'.drop (ii + 1) :=
    List.eraseIdx_eq_take_drop_succ fr' ii
  have hopnotin : op ∉ fr'.eraseIdx ii := by
    have hc : (fr'.take ii).count op + (1 + (fr'.drop (ii + 1)).count op) = 1 := by
      have := hcount1
      conv_lhs at this => rw [hdecomp]
      rw [List.count_append, List.count_cons_self] at this
      omega
    rw [herase]
    intro hmem
    have := List.count_pos_iff.mpr hmem
    rw [List.count_append] at this
    omega
  have hmem_erase : ∀ x ∈ fr', x ≠ op → x ∈ fr'.eraseIdx ii := by
    intro x hx hxne
    rw [herase]
    conv at hx => rw [hdecomp]
    rcases List.mem_append.mp hx with h | h
    · exact List.mem_append_left _ h
    · rcases List.mem_cons.mp h with rfl | h
      · exact absurd rfl hxne
      · exact List.mem_append_right _ h
  have hsub_erase : ∀ x ∈ fr'.eraseIdx ii, x ∈ fr' :=
    fun x hx => (List.eraseIdx_sublist fr' ii).subset hx
  have hmem_fr' : ∀ x ∈ fr', x ∈ frontier
      ∨ (x ∈ g.succsAt op ∧ x ∉ path' ∧ ∀ p ∈ g.predsAt x, p ∈ path') := by
    intro x hx
    exact addEligibles_mem g path' (g.succsAt op) frontier x hx
  have hpath'nd : path'.Nodup :=
    List.Nodup.append inv.pathNd (List.nodup_singleton op)
      (List.disjoint_singleton.mpr hopnew)
  constructor
  · rw [hfst, hsnd]
    refine ⟨hpath'nd, ?_, ?_, ?_, ?_, ?_, ?_, ?_⟩
    · intro i hi p hp
      have hi1 : i < path.length + 1 := by
        simpa [hpathdef] using hi
      rcases Nat.lt_succ_iff_lt_or_eq.mp hi1 with hlt | heqi
      · have hget : path'.get ⟨i, hi⟩ = path.get ⟨i, hlt⟩ :=
          List.getElem_append_left hlt
        rw [hget] at hp
        have htake : path'.take i = path.take i := by
          rw [hpathdef]
          exact List.take_append_of_le_length (le_of_lt hlt)
        rw [htake]
        exact inv.pathOrd i hlt p hp
      · subst heqi
        have hget : path'.get ⟨path.length, hi⟩ = op :=
          List.getElem_concat_length path op path.length rfl hi
        rw [hget] at hp
        have htake : path'.take path.length = path := by
          rw [hpathdef, List.take_append_of_le_length (le_refl _), List.take_length]
        rw [htake]
        exact hoppreds p hp
    · intro u hu
      rcases List.mem_append.mp hu with h | h
      · exact inv.pathKeys u h
      · rw [List.mem_singleton] at h
        subst h
        exact hopkeys
    · exact List.Nodup.sublist (List.eraseIdx_sublist fr' ii)
        (addEligibles_nodup g path' (g.succsAt op) frontier inv.frNd)
    · intro u hu
      have hu' := hsub_erase u hu
      rcases hmem_fr' u hu' with h | ⟨_, h2, _⟩
      · have hun : u ∉ path := inv.frNew u h
        have hune : u ≠ op := fun heq => hopnotin (heq ▸ hu)
        intro hmem
        rcases List.mem_append.mp hmem with h' | h'
        · exact hun h'
        · exact hune (List.mem_singleton.mp h')
      · exact h2
    · intro u hu p hp
      have hu' := hsub_erase u hu
      rcases hmem_fr' u hu' with h | ⟨_, _, h3⟩
      · exact List.mem_append_left _ (inv.frPreds u h p hp)
      · exact h3 p hp
    · intro u hu
      have hu' := hsub_erase u hu
      rcases hmem_fr' u hu' with h | ⟨h1, _, _⟩
      · exact inv.frKeys u h
      · exact wf_closed hwf op u h1
    · intro u hne0 hsuball
      by_cases hinp : u ∈ path'
      · exact Or.inl hinp
      · refine Or.inr ?_
        by_cases hold : ∀ p ∈ g.predsAt u, p ∈ path
        · rcases inv.frComplete u hne0 hold with h | h
          · exact absurd (List.mem_append_left _ h) hinp
          · have hune : u ≠ op := by
              intro heq
              exact hinp (heq ▸ List.mem_append_right _ (List.mem_singleton_self op))
            exact hmem_erase u (addEligibles_mono g path' (g.succsAt op) frontier h) hune
        · push_neg at hold
          obtain ⟨p0, hp0, hp0n⟩ := hold
          have hp0' : p0 ∈ path' := hsuball p0 hp0
          have hp0op : p0 = op := by
            rcases List.mem_append.mp hp0' with h | h
            · exact absurd h hp0n
            · exact List.mem_singleton.mp h
          have hopu : op ∈ g.predsAt u := hp0op ▸ hp0
          have husucc : u ∈ g.succsAt op := wf_conv1 hwf u op hopu
          have hufr' : u ∈ fr' :=
            addEligibles_processed g path' (g.succsAt op) frontier u husucc hinp hsuball
          have hune : u ≠ op := by
            intro heq
            have := wf_rank hwf u op hopu
            rw [heq] at this
            exact lt_irrefl _ this
          exact hmem_erase u hufr' hune
  · rw [hfst]
    have hopK : op ∈ (g.succs.map Prod.fst).dedup := by
      obtain ⟨f, hf, hf1⟩ := hopkeys
      exact List.mem_dedup.mpr (hf1 ▸ List.mem_map_of_mem Prod.fst hf)
    have himp : ∀ v : Op, (!path'.contains v) = true → (!path.contains v) = true := by
      intro v hv
      have hv' : v ∉ path' := by simpa using hv
      have hvp : v ∉ path := fun h => hv' (List.mem_append_left _ h)
      simpa using hvp
    have hsubl := List.monotone_filter_right (g.succs.map Prod.fst).dedup himp
    have hne2 : ((g.succs.map Prod.fst).dedup).filter (fun v => !path'.contains v)
        ≠ ((g.succs.map Prod.fst).dedup).filter (fun v => !path.contains v) := by
      intro heq
      have h1 : op ∈ ((g.succs.map Prod.fst).dedup).filter (fun v => !path.contains v) := by
        rw [List.mem_filter]
        exact ⟨hopK, by simpa using hopnew⟩
      rw [← heq] at h1
      have h2 := (List.mem_filter.mp h1).2
      have h3 : op ∉ path' := by simpa using h2
      exact h3 (List.mem_append_right _ (List.mem_singleton_self op))
    exact lt_of_le_of_ne hsubl.length_le
      (fun heqL => hne2 (hsubl.eq_of_length heqL))

theorem simLoop_spec (g : SGraph) (rank : Op → Nat) (hwf : SGraphWF g rank) :
    ∀ (fuel : Nat) (rng : List Nat) (path frontier : List Op),
      SimInv g path frontier → remCount g path < fuel →
      (∃ ext, simLoop g fuel rng path frontier = path ++ ext)
      ∧ (simLoop g fuel rng path frontier).Nodup
      ∧ (∀ i (hi : i < (simLoop g fuel rng path frontier).length),
          ∀ p ∈ g.predsAt ((simLoop g fuel rng path frontier).get ⟨i, hi⟩),
            p ∈ (simLoop g fuel rng path frontier).take i)
      ∧ (∀ u ∈ simLoop g fuel rng path frontier, ∃ f ∈ g.succs, f.1 = u)
      ∧ (∀ u, g.predsAt u ≠ [] →
          (∀ p ∈ g.predsAt u, p ∈ simLoop g fuel rng path frontier) →
          u ∈ simLoop g fuel rng path frontier) := by
  intro fuel
  induction fuel with
  | zero =>
    intro rng path frontier _ hrem
    exact absurd hrem (Nat.not_lt_zero _)
  | succ fuel ih =>
    intro rng path frontier inv hrem
    cases hfe : frontier.isEmpty with
    | true =>
      have hres : simLoop g (fuel + 1) rng path frontier = path := by
        show (if frontier.isEmpty then path else _) = path
        rw [hfe]
        rfl
      rw [hres]
      refine ⟨⟨[], by simp⟩, inv.pathNd, inv.pathOrd, inv.pathKeys, ?_⟩
      intro u hne0 hsub
      rcases inv.frComplete u hne0 hsub with h | h
      · exact h
      · rw [List.isEmpty_iff.mp hfe] at h
        cases h
    | false =>
      have hne : frontier ≠ [] := by
        intro h
        rw [h] at hfe
        cases hfe
      obtain ⟨inv', hdec⟩ := simInv_step g rank path frontier (rng.headD 0) hwf hne inv
      have hrem' : remCount g (simStep g path frontier (rng.headD 0)).1 < fuel := by
        omega
      have hunf : simLoop g (fuel + 1) rng path frontier
          = simLoop g fuel rng.tail (simStep g path frontier (rng.headD 0)).1
              (simStep g path frontier (rng.headD 0)).2 := by
        show (if frontier.isEmpty then path else _) = _
        rw [hfe]
        rfl
      rw [hunf]
      obtain ⟨⟨ext, hext⟩, hnd, hord, hkeys, hcomp⟩ :=
        ih rng.tail (simStep g path frontier (rng.headD 0)).1
          (simStep g path frontier (rng.headD 0)).2 inv' hrem'
      refine ⟨?_, hnd, hord, hkeys, hcomp⟩
      refine ⟨[frontier.getD (rng.headD 0 % frontier.length) (.cpuOp "")] ++ ext, ?_⟩
      rw [hext]
      have hfst : (simStep g path frontier (rng.headD 0)).1
          = path ++ [frontier.getD (rng.headD 0 % frontier.length) (.cpuOp "")] := rfl
      rw [hfst, List.append_assoc]

theorem closureStep_mem (g : SGraph) (cur : List Op) :
    ∀ x ∈ closureStep g cur, x ∈ cur ∨ ∃ v ∈ cur, x ∈ g.succsAt v := by
  intro x hx
  unfold closureStep at hx
  refine mem_foldl_of_step (fun acc v => (g.succsAt v).foldl addUniqueVal acc)
    (fun v x => x ∈ g.succsAt v) ?_ cur cur x hx
  intro acc v y hy
  rcases mem_foldl_of_step addUniqueVal (fun b x => x = b) mem_addUniqueVal
    (g.succsAt v) acc y hy with h | ⟨b, hb, rfl⟩
  · exact Or.inl h
  · exact Or.inr hb

theorem closureN_induct (g : SGraph) (P : Op → Prop)
    (hcl : ∀ v, P v → ∀ x ∈ g.succsAt v, P x) :
    ∀ (n : Nat) (cur : List Op), (∀ x ∈ cur, P x) → ∀ x ∈ closureN g n cur, P x := by
  intro n
  induction n with
  | zero => intro cur hcur x hx; exact hcur x hx
  | succ n ih =>
    intro cur hcur x hx
    have hstep : ∀ y ∈ closureStep g cur, P y := by
      intro y hy
      rcases closureStep_mem g cur y hy with h | ⟨v, hv, hs⟩
      · exact hcur y h
      · exact hcl v (hcur v hv) y hs
    exact ih (closureStep g cur) hstep x hx

theorem reachClosure_induct (g : SGraph) (P : Op → Prop) (hstart : P g.start)
    (hcl : ∀ v, P v → ∀ x ∈ g.succsAt v, P x) : ∀ x ∈ reachClosure g, P x := by
  refine closureN_induct g P hcl g.succs.length [g.start] ?_
  intro x hx
  rw [List.mem_singleton] at hx
  subst hx
  exact hstart

/-- Claim C2: the result of get_simulation_order consists of graph
vertices and, restricted to them (hence as a whole), is a topological
sort of G: it is duplicate-free, every element appears only after all
its predecessors in G, and every vertex reachable from start appears
exactly once.  Hypotheses: the graph is well-formed (preds and succs
converse, successor lists are vertices, rank function for acyclicity,
predecessors of reachable vertices reachable), and the node path is a
legal search path (contains start, duplicate-free, made of vertices,
predecessor-closed in order). -/
theorem c2_playout_topological (g : SGraph) (rank : Op → Nat) (rng : List Nat)
    (path0 : List Op)
    (hwf : SGraphWF g rank)
    (hstart : g.start ∈ path0)
    (hnd : path0.Nodup)
    (hord : ∀ i (hi : i < path0.length), ∀ p ∈ g.predsAt (path0.get ⟨i, hi⟩), p ∈ path0.take i)
    (hkeys : ∀ u ∈ path0, ∃ f ∈ g.succs, f.1 = u)
    (hclosed : ∀ v ∈ reachClosure g, ∀ p ∈ g.predsAt v, p ∈ reachClosure g) :
    (∀ u ∈ get_simulation_order g rng path0, ∃ f ∈ g.succs, f.1 = u)
    ∧ (get_simulation_order g rng path0).Nodup
    ∧ (∀ i (hi : i < (get_simulation_order g rng path0).length),
        ∀ p ∈ g.predsAt ((get_simulation_order g rng path0).get ⟨i, hi⟩),
          p ∈ (get_simulation_order g rng path0).take i)
    ∧ (∀ v ∈ reachClosure g, (get_simulation_order g rng path0).count v = 1) := by
  have hinv := simInv_init g rank path0 hwf hnd hord hkeys
  have hrem : remCount g path0 < g.succs.length + 1 := by
    unfold remCount
    have h1 := List.length_filter_le (fun v => !path0.contains v)
      ((g.succs.map Prod.fst).dedup)
    have h2 := (List.dedup_sublist (g.succs.map Prod.fst)).length_le
    have h3 : (g.succs.map Prod.fst).length = g.succs.length := List.length_map _ _
    omega
  obtain ⟨⟨ext, hext⟩, hnd', hord', hkeys', hcomp'⟩ :=
    simLoop_spec g rank hwf (g.succs.length + 1) rng path0 (simInitFrontier g path0)
      hinv hrem
  have heq : get_simulation_order g rng path0
      = simLoop g (g.succs.length + 1) rng path0 (simInitFrontier g path0) := rfl
  rw [heq]
  refine ⟨hkeys', hnd', hord', ?_⟩
  have hstartOr : ∀ v ∈ reachClosure g, v = g.start ∨ g.predsAt v ≠ [] := by
    refine reachClosure_induct g _ (Or.inl rfl) ?_
    intro v _ x hx
    refine Or.inr ?_
    have hmem := wf_conv2 hwf v x hx
    intro hemp
    rw [hemp] at hmem
    cases hmem
  have hreach : ∀ v ∈ reachClosure g,
      v ∈ simLoop g (g.succs.length + 1) rng path0 (simInitFrontier g path0) := by
    suffices H : ∀ n v, rank v < n → v ∈ reachClosure g →
        v ∈ simLoop g (g.succs.length + 1) rng path0 (simInitFrontier g path0) by
      exact fun v hv => H (rank v + 1) v (Nat.lt_succ_self _) hv
    intro n
    induction n with
    | zero => intro v h; exact absurd h (Nat.not_lt_zero _)
    | succ n ih =>
      intro v hvr hv
      rcases hstartOr v hv with rfl | hne0
      · rw [hext]
        exact List.mem_append_left _ hstart
      · refine hcomp' v hne0 ?_
        intro p hp
        have hpr : p ∈ reachClosure g := hclosed v hv p hp
        have hrk : rank p < rank v := wf_rank hwf v p hp
        exact ih p (by omega) hpr
  intro v hv
  exact List.count_eq_one_of_mem hnd' (hreach v hv)

/-- Witness for the playout theorem on the chain a to b with the lone
start vertex as the node path. -/
theorem c2_playout_topological_witness :
    (∀ u ∈ get_simulation_order
        (SGraph.mk [(Op.cpuOp "a", [Op.cpuOp "b"]), (Op.cpuOp "b", [])]
          [(Op.cpuOp "a", []), (Op.cpuOp "b", [Op.cpuOp "a"])] (Op.cpuOp "a"))
        [0] [Op.cpuOp "a"],
      ∃ f ∈ [(Op.cpuOp "a", [Op.cpuOp "b"]), (Op.cpuOp "b", [])], f.1 = u)
    ∧ (get_simulation_order
        (SGraph.mk [(Op.cpuOp "a", [Op.cpuOp "b"]), (Op.cpuOp "b", [])]
          [(Op.cpuOp "a", []), (Op.cpuOp "b", [Op.cpuOp "a"])] (Op.cpuOp "a"))
        [0] [Op.cpuOp "a"]).Nodup
    ∧ (∀ i (hi : i < (get_simulation_order
        (SGraph.mk [(Op.cpuOp "a", [Op.cpuOp "b"]), (Op.cpuOp "b", [])]
          [(Op.cpuOp "a", []), (Op.cpuOp "b", [Op.cpuOp "a"])] (Op.cpuOp "a"))
        [0] [Op.cpuOp "a"]).length),
        ∀ p ∈ (SGraph.mk [(Op.cpuOp "a", [Op.cpuOp "b"]), (Op.cpuOp "b", [])]
          [(Op.cpuOp "a", []), (Op.cpuOp "b", [Op.cpuOp "a"])] (Op.cpuOp "a")).predsAt
            ((get_simulation_order
              (SGraph.mk [(Op.cpuOp "a", [Op.cpuOp "b"]), (Op.cpuOp "b", [])]
                [(Op.cpuOp "a", []), (Op.cpuOp "b", [Op.cpuOp "a"])] (Op.cpuOp "a"))
              [0] [Op.cpuOp "a"]).get ⟨i, hi⟩),
          p ∈ (get_simulation_order
            (SGraph.mk [(Op.cpuOp "a", [Op.cpuOp "b"]), (Op.cpuOp "b", [])]
              [(Op.cpuOp "a", []), (Op.cpuOp "b", [Op.cpuOp "a"])] (Op.cpuOp "a"))
            [0] [Op.cpuOp "a"]).take i)
    ∧ (∀ v ∈ reachClosure
        (SGraph.mk [(Op.cpuOp "a", [Op.cpuOp "b"]), (Op.cpuOp "b", [])]
          [(Op.cpuOp "a", []), (Op.cpuOp "b", [Op.cpuOp "a"])] (Op.cpuOp "a")),
        (get_simulation_order
          (SGraph.mk [(Op.cpuOp "a", [Op.cpuOp "b"]), (Op.cpuOp "b", [])]
            [(Op.cpuOp "a", []), (Op.cpuOp "b", [Op.cpuOp "a"])] (Op.cpuOp "a"))
          [0] [Op.cpuOp "a"]).count v = 1) := by
  refine c2_playout_topological _ (fun o => if o = Op.cpuOp "a" then 0 else 1) [0]
    [Op.cpuOp "a"] ⟨by decide, by decide, by decide, by decide⟩ (by decide) (by decide)
    ?_ (by decide) (by decide)
  intro i hi p hp
  have hi0 : i = 0 := by
    have : i < 1 := hi
    omega
  subst hi0
  simp [SGraph.predsAt, adjAt, adjFind] at hp

/- ===================== C4: backpropagation ===================== -/

theorem localUpdate_cons (o : Op) (e fv : Bool) (k : Nat) (ts : List Real)
    (c : MNode) (cs : List MNode) :
    localUpdate (.node o e fv k ts (c :: cs))
      = .node o e (fv || (c :: cs).all (fun x => x.fullyVisited)) (k + 1) ts (c :: cs) := by
  have h0 : localUpdate (.node o e fv k ts (c :: cs))
      = if (c :: cs).all (fun x => x.fullyVisited)
        then MNode.node o e true (k + 1) ts (c :: cs)
        else MNode.node o e fv (k + 1) ts (c :: cs) := rfl
  rw [h0]
  cases hall : (c :: cs).all (fun x => x.fullyVisited)
  · simp
  · simp

theorem localUpdate_spec (nd : MNode) :
    (localUpdate nd).op = nd.op
    ∧ (localUpdate nd).expanded = nd.expanded
    ∧ (localUpdate nd).n = nd.n + 1
    ∧ (localUpdate nd).times = nd.times
    ∧ (localUpdate nd).children = nd.children
    ∧ (localUpdate nd).fullyVisited
        = (nd.fullyVisited || (nd.children.isEmpty && nd.expanded)
            || (!nd.children.isEmpty && nd.children.all (fun c => c.fullyVisited))) := by
  cases nd with
  | node o e fv k ts ch =>
    cases ch with
    | nil =>
      cases e <;>
        simp [localUpdate, MNode.op, MNode.expanded, MNode.n, MNode.times,
          MNode.children, MNode.fullyVisited]
    | cons c cs =>
      rw [localUpdate_cons]
      refine ⟨rfl, rfl, rfl, rfl, rfl, ?_⟩
      simp [MNode.fullyVisited, MNode.children, MNode.expanded]

theorem withTimes_spec (nd : MNode) (ts : List Real) :
    ((nd.withTimes ts).op = nd.op)
    ∧ ((nd.withTimes ts).expanded = nd.expanded)
    ∧ ((nd.withTimes ts).fullyVisited = nd.fullyVisited)
    ∧ ((nd.withTimes ts).n = nd.n)
    ∧ ((nd.withTimes ts).children = nd.children) := by
  cases nd
  exact ⟨rfl, rfl, rfl, rfl, rfl⟩

theorem setChild_spec (nd : MNode) (i : Nat) (c : MNode) :
    ((nd.setChild i c).op = nd.op)
    ∧ ((nd.setChild i c).expanded = nd.expanded)
    ∧ ((nd.setChild i c).fullyVisited = nd.fullyVisited)
    ∧ ((nd.setChild i c).n = nd.n)
    ∧ ((nd.setChild i c).times = nd.times)
    ∧ ((nd.setChild i c).children = nd.children.set i c) := by
  cases nd
  exact ⟨rfl, rfl, rfl, rfl, rfl, rfl⟩

theorem nodeAt_cons (nd : MNode) (i : Nat) (rest : List Nat) :
    nodeAt nd (i :: rest)
      = match nd.children.get? i with
        | none => none
        | some c => nodeAt c rest := rfl

theorem backpropAt_cons {Ctx : Type} (sb : Ctx → MNode → BenchResult → Ctx × List Real)
    (br : BenchResult) (t : MNode) (i : Nat) (rest : List Nat) (ctx : Ctx) (c : MNode)
    (hci : t.children.get? i = some c) :
    backpropAt sb br t (i :: rest) ctx
      = ((localUpdate (t.setChild i (backpropAt sb br c rest ctx).1)).withTimes
            (sb (backpropAt sb br c rest ctx).2
              (localUpdate (t.setChild i (backpropAt sb br c rest ctx).1)) br).2,
         (sb (backpropAt sb br c rest ctx).2
            (localUpdate (t.setChild i (backpropAt sb br c rest ctx).1)) br).1) := by
  conv_lhs => rw [backpropAt]
  simp only [hci]

/-- Claim C4: a backprop call at a valid tree position increments the
playout count of the target node and of every ancestor up to the root by
exactly one, leaves every node off that path unchanged, and updates each
path node by the rule that fullyVisited is set to true iff the node is
childless and expanded or all its (already updated) children are fully
visited, never resetting it; op, expanded flag and child structure are
preserved, and the strategy update is applied once per path node (the
times of each path node come from one sb invocation with the same
result). -/
theorem c4_backprop_update {Ctx : Type} (sb : Ctx → MNode → BenchResult → Ctx × List Real)
    (br : BenchResult) :
    ∀ (pos : List Nat) (t : MNode) (ctx : Ctx), validPos t pos = true →
      (∀ q r, q ++ r = pos →
        ∃ ndPre ndPost, nodeAt t q = some ndPre
          ∧ nodeAt (backpropAt sb br t pos ctx).1 q = some ndPost
          ∧ ndPost.n = ndPre.n + 1
          ∧ ndPost.op = ndPre.op
          ∧ ndPost.expanded = ndPre.expanded
          ∧ ndPost.children.length = ndPre.children.length
          ∧ ndPost.fullyVisited
              = (ndPre.fullyVisited || (ndPost.children.isEmpty && ndPre.expanded)
                 || (!ndPost.children.isEmpty
                     && ndPost.children.all (fun c => c.fullyVisited)))
          ∧ (ndPre.fullyVisited = true → ndPost.fullyVisited = true))
      ∧ (∀ q, (¬ ∃ r, q ++ r = pos) →
          nodeAt (backpropAt sb br t pos ctx).1 q = nodeAt t q) := by
  intro pos
  induction pos with
  | nil =>
    intro t ctx _
    have hres : (backpropAt sb br t [] ctx).1
        = (localUpdate t).withTimes (sb ctx (localUpdate t) br).2 := rfl
    obtain ⟨hop, hexp, hn, _, hch, hfv⟩ := localUpdate_spec t
    obtain ⟨wop, wexp, wfv, wn, wch⟩ :=
      withTimes_spec (localUpdate t) (sb ctx (localUpdate t) br).2
    constructor
    · intro q r hqr
      have hq : q = [] := (List.append_eq_nil.mp hqr).1
      subst hq
      refine ⟨t, (localUpdate t).withTimes (sb ctx (localUpdate t) br).2, rfl,
        by rw [hres]; rfl, ?_, ?_, ?_, ?_, ?_, ?_⟩
      · rw [wn, hn]
      · rw [wop, hop]
      · rw [wexp, hexp]
      · rw [wch, hch]
      · rw [wfv, hfv, wch, hch]
      · intro hpre
        rw [wfv, hfv, hpre]
        simp
    · intro q hq
      cases q with
      | nil => exact absurd ⟨[], rfl⟩ hq
      | cons j q1 =>
        rw [hres, nodeAt_cons, nodeAt_cons, wch, hch]
  | cons i rest ih =>
    intro t ctx hvalid
    have hv : ∃ c, t.children.get? i = some c ∧ validPos c rest = true := by
      unfold validPos nodeAt at hvalid
      cases hg : t.children.get? i with
      | none => rw [hg] at hvalid; cases hvalid
      | some c =>
        rw [hg] at hvalid
        exact ⟨c, rfl, hvalid⟩
    obtain ⟨c, hci, hcv⟩ := hv
    have hilt : i < t.children.length := (List.get?_eq_some.mp hci).1
    obtain ⟨ihPath, ihOff⟩ := ih c ctx hcv
    rw [backpropAt_cons sb br t i rest ctx c hci]
    obtain ⟨sop, sexp, sfv, sn, sts, sch⟩ :=
      setChild_spec t i (backpropAt sb br c rest ctx).1
    obtain ⟨lop, lexp, ln, lts, lch, lfv⟩ :=
      localUpdate_spec (t.setChild i (backpropAt sb br c rest ctx).1)
    obtain ⟨wop, wexp, wfv, wn, wch⟩ :=
      withTimes_spec (localUpdate (t.setChild i (backpropAt sb br c rest ctx).1))
        (sb (backpropAt sb br c rest ctx).2
          (localUpdate (t.setChild i (backpropAt sb br c rest ctx).1)) br).2
    have hresch : ((localUpdate (t.setChild i (backpropAt sb br c rest ctx).1)).withTimes
        (sb (backpropAt sb br c rest ctx).2
          (localUpdate (t.setChild i (backpropAt sb br c rest ctx).1)) br).2).children
        = t.children.set i (backpropAt sb br c rest ctx).1 := by
      rw [wch, lch, sch]
    have hget_set : (t.children.set i (backpropAt sb br c rest ctx).1).get? i
        = some (backpropAt sb br c rest ctx).1 := by
      rw [List.get?_set_eq, List.get?_eq_get hilt]
      rfl
    constructor
    · intro q r hqr
      cases q with
      | nil =>
        refine ⟨t, _, rfl, rfl, ?_, ?_, ?_, ?_, ?_, ?_⟩
        · rw [wn, ln, sn]
        · rw [wop, lop, sop]
        · rw [wexp, lexp, sexp]
        · rw [hresch, List.length_set]
        · rw [wfv, lfv, sfv, sexp, sch, hresch]
        · intro hpre
          rw [wfv, lfv, sfv, hpre]
          simp
      | cons j q1 =>
        rw [List.cons_append] at hqr
        injection hqr with hj1 hq1r
        subst hj1
        obtain ⟨ndPre, ndPost, hpre, hpost, hrest⟩ := ihPath q1 r hq1r
        refine ⟨ndPre, ndPost, ?_, ?_, hrest⟩
        · rw [nodeAt_cons, hci]
          exact hpre
        · rw [nodeAt_cons, hresch, hget_set]
          exact hpost
    · intro q hq
      cases q with
      | nil => exact absurd ⟨i :: rest, rfl⟩ hq
      | cons j q1 =>
        by_cases hji : j = i
        · subst hji
          have hq1 : ¬ ∃ r, q1 ++ r = rest := by
            intro ⟨r, hr⟩
            exact hq ⟨r, by rw [List.cons_append, hr]⟩
          rw [nodeAt_cons, nodeAt_cons, hresch, hget_set, hci]
          exact ihOff q1 hq1
        · rw [nodeAt_cons, nodeAt_cons, hresch,
            List.get?_set_ne _ _ (fun h => hji h.symm)]

/-- Witness for the backprop theorem: a root with one child, backprop at
the child, with a strategy that appends the median. -/
theorem c4_backprop_update_witness :
    validPos (.node (Op.cpuOp "a") true false 1 []
        [.node (Op.cpuOp "b") false false 0 [] []]) [0] = true
    ∧ (∀ q r, q ++ r = [0] →
        ∃ ndPre ndPost,
          nodeAt (.node (Op.cpuOp "a") true false 1 []
            [.node (Op.cpuOp "b") false false 0 [] []]) q = some ndPre
          ∧ nodeAt (backpropAt (fun ctx nd br => (ctx, br.pct50 :: nd.times))
              (BenchResult.mk 0 0 0 0 0 0)
              (.node (Op.cpuOp "a") true false 1 []
                [.node (Op.cpuOp "b") false false 0 [] []]) [0] 0).1 q = some ndPost
          ∧ ndPost.n = ndPre.n + 1
          ∧ ndPost.op = ndPre.op
          ∧ ndPost.expanded = ndPre.expanded
          ∧ ndPost.children.length = ndPre.children.length
          ∧ ndPost.fullyVisited
              = (ndPre.fullyVisited || (ndPost.children.isEmpty && ndPre.expanded)
                 || (!ndPost.children.isEmpty
                     && ndPost.children.all (fun c => c.fullyVisited)))
          ∧ (ndPre.fullyVisited = true → ndPost.fullyVisited = true)) := by
  refine ⟨rfl, (@c4_backprop_update Nat
    (fun ctx nd br => (ctx, br.pct50 :: nd.times)) (BenchResult.mk 0 0 0 0 0 0)
    [0] (.node (Op.cpuOp "a") true false 1 []
      [.node (Op.cpuOp "b") false false 0 [] []]) 0 rfl).1⟩

/- ===================== C5: expand returns the first unplayed child ===================== -/

theorem find?_first {α : Type} (p : α → Bool) :
    ∀ (l : List α) (i : Nat) (hi : i < l.length),
      p (l.get ⟨i, hi⟩) = true →
      (∀ j (hj : j < i), p (l.get ⟨j, Nat.lt_trans hj hi⟩) = false) →
      l.find? p = some (l.get ⟨i, hi⟩) := by
  intro l
  induction l with
  | nil => intro i hi; cases hi
  | cons a as ih =>
    intro i hi hp hprev
    cases i with
    | zero =>
      have hget : (a :: as).get ⟨0, hi⟩ = a := rfl
      rw [hget] at hp ⊢
      rw [List.find?_cons_of_pos _ hp]
    | succ i =>
      have ha : p a = false := hprev 0 (Nat.succ_pos i)
      rw [List.find?_cons_of_neg _ (by simp [ha])]
      exact ih i (Nat.lt_of_succ_lt_succ hi) hp
        (fun j hj => hprev (j + 1) (Nat.succ_lt_succ hj))

/-- Claim C5: once expand has generated children, the call fails with
the fatal unreachable error exactly when the node has children and every
child already has a playout (and fails in no other case); when a child
with zero playouts exists, expand returns the first one. -/
theorem c5_expand_first_unplayed :
    (∀ (g : SGraph) (path : List Op) (nd : MNode),
      (∃ e, expandOp g path nd = .error e)
        ↔ ((expandGen g path nd).children.isEmpty = false
            ∧ ∀ c ∈ (expandGen g path nd).children, c.times.isEmpty = false))
    ∧ (∀ (g : SGraph) (path : List Op) (nd : MNode) (i : Nat)
        (hi : i < (expandGen g path nd).children.length),
        ((expandGen g path nd).children.get ⟨i, hi⟩).times.isEmpty = true →
        (∀ j (hj : j < i),
          ((expandGen g path nd).children.get ⟨j, Nat.lt_trans hj hi⟩).times.isEmpty = false) →
        expandOp g path nd = .ok ((expandGen g path nd).children.get ⟨i, hi⟩)) := by
  constructor
  · intro g path nd
    unfold expandOp chooseChild
    constructor
    · intro ⟨e, he⟩
      cases hemp : (expandGen g path nd).children.isEmpty with
      | true => rw [hemp] at he; simp at he
      | false =>
        rw [hemp] at he
        simp only [Bool.false_eq_true, if_false] at he
        refine ⟨rfl, ?_⟩
        cases hfind : (expandGen g path nd).children.find? (fun c => c.times.isEmpty) with
        | some c => rw [hfind] at he; cases he
        | none =>
          intro c hc
          have := List.find?_eq_none.mp hfind c hc
          cases h : c.times.isEmpty
          · rfl
          · exact absurd h this
    · intro ⟨hemp, hall⟩
      rw [hemp]
      simp only [Bool.false_eq_true, if_false]
      cases hfind : (expandGen g path nd).children.find? (fun c => c.times.isEmpty) with
      | some c =>
        have hc := List.find?_some hfind
        have hmem := List.mem_of_find?_eq_some hfind
        rw [hall c hmem] at hc
        cases hc
      | none => exact ⟨"unreachable", rfl⟩
  · intro g path nd i hi hempty hprev
    unfold expandOp chooseChild
    have hne : (expandGen g path nd).children.isEmpty = false := by
      cases h : (expandGen g path nd).children with
      | nil => rw [h] at hi; cases hi
      | cons a as => rfl
    rw [hne]
    simp only [Bool.false_eq_true, if_false]
    rw [find?_first (fun c => c.times.isEmpty) _ i hi hempty hprev]

/-- Witness for the expand-choice theorem: an expanded node with one
fresh child. -/
theorem c5_expand_first_unplayed_witness :
    ((MNode.node (Op.cpuOp "x") true false 1 [] [newChild (Op.cpuOp "y")]).children.get
        ⟨0, by decide⟩).times.isEmpty = true
    ∧ expandOp (SGraph.mk [] [] (Op.cpuOp "x")) []
        (MNode.node (Op.cpuOp "x") true false 1 [] [newChild (Op.cpuOp "y")])
      = .ok ((MNode.node (Op.cpuOp "x") true false 1 []
          [newChild (Op.cpuOp "y")]).children.get ⟨0, by decide⟩) := by
  refine ⟨rfl, ?_⟩
  exact c5_expand_first_unplayed.2 (SGraph.mk [] [] (Op.cpuOp "x")) []
    (MNode.node (Op.cpuOp "x") true false 1 [] [newChild (Op.cpuOp "y")]) 0
    (by decide) rfl (fun j hj => absurd hj (Nat.not_lt_zero j))

/- ===================== C9: terminal nodes ===================== -/

/-- Claim C9 counterexample: in the graph with start a and two terminal
successors x and y, expand at the node of x (path x then a) creates the
child y although x is terminal (its op has no successors); and the first
backprop visiting a fresh, not yet expanded terminal node leaves
fullyVisited false. -/
theorem c9_terminal_node_gets_children :
    ((SGraph.mk [(Op.cpuOp "a", [Op.cpuOp "x", Op.cpuOp "y"]), (Op.cpuOp "x", []),
        (Op.cpuOp "y", [])]
      [(Op.cpuOp "a", []), (Op.cpuOp "x", [Op.cpuOp "a"]), (Op.cpuOp "y", [Op.cpuOp "a"])]
      (Op.cpuOp "a")).succsAt (Op.cpuOp "x")).isEmpty = true
    ∧ expandChildren
        (SGraph.mk [(Op.cpuOp "a", [Op.cpuOp "x", Op.cpuOp "y"]), (Op.cpuOp "x", []),
            (Op.cpuOp "y", [])]
          [(Op.cpuOp "a", []), (Op.cpuOp "x", [Op.cpuOp "a"]), (Op.cpuOp "y", [Op.cpuOp "a"])]
          (Op.cpuOp "a"))
        [Op.cpuOp "x", Op.cpuOp "a"]
      = [Op.cpuOp "y"]
    ∧ ((expandGen
        (SGraph.mk [(Op.cpuOp "a", [Op.cpuOp "x", Op.cpuOp "y"]), (Op.cpuOp "x", []),
            (Op.cpuOp "y", [])]
          [(Op.cpuOp "a", []), (Op.cpuOp "x", [Op.cpuOp "a"]), (Op.cpuOp "y", [Op.cpuOp "a"])]
          (Op.cpuOp "a"))
        [Op.cpuOp "x", Op.cpuOp "a"] (newChild (Op.cpuOp "x"))).children).isEmpty = false
    ∧ (localUpdate (newChild (Op.cpuOp "x"))).fullyVisited = false := by
  exact ⟨rfl, rfl, rfl, rfl⟩

/-- Claim C9 (amended): a node whose expansion finds an empty path
frontier (in particular a terminal node once the whole reachable graph is
scheduled) stays childless, and the first backprop visiting it after that
expansion sets fullyVisited to true. -/
theorem c9_childless_expanded_fully_visited (g : SGraph) (path : List Op) (nd : MNode)
    (hch : nd.children.isEmpty = true) (hfr : expandChildren g path = []) :
    ((expandGen g path nd).children.isEmpty = true
    ∧ (localUpdate (expandGen g path nd)).fullyVisited = true
    ∧ (localUpdate (expandGen g path nd)).n = (expandGen g path nd).n + 1) := by
  cases nd with
  | node o e fv k ts ch =>
    have hch' : ch = [] := by
      cases ch
      · rfl
      · cases hch
    subst hch'
    cases he : e with
    | true =>
      have hgen : expandGen g path (.node o true fv k ts []) = .node o true fv k ts [] := rfl
      rw [hgen]
      refine ⟨rfl, ?_, rfl⟩
      rfl
    | false =>
      have hgen : expandGen g path (.node o false fv k ts [])
          = .node o true fv k ts ([] ++ (expandChildren g path).map newChild) := rfl
      rw [hgen, hfr]
      exact ⟨rfl, rfl, rfl⟩

/-- Witness for the amended terminal theorem on the singleton graph with
the completed path. -/
theorem c9_childless_expanded_fully_visited_witness :
    (newChild (Op.cpuOp "a")).children.isEmpty = true
    ∧ expandChildren (SGraph.mk [(Op.cpuOp "a", [])] [(Op.cpuOp "a", [])] (Op.cpuOp "a"))
        [Op.cpuOp "a"] = []
    ∧ (localUpdate (expandGen
        (SGraph.mk [(Op.cpuOp "a", [])] [(Op.cpuOp "a", [])] (Op.cpuOp "a"))
        [Op.cpuOp "a"] (newChild (Op.cpuOp "a")))).fullyVisited = true := by
  refine ⟨rfl, rfl, ?_⟩
  exact (c9_childless_expanded_fully_visited
    (SGraph.mk [(Op.cpuOp "a", [])] [(Op.cpuOp "a", [])] (Op.cpuOp "a"))
    [Op.cpuOp "a"] (newChild (Op.cpuOp "a")) rfl rfl).2.1

/- ===================== C8: the driver loop never backpropagates ===================== -/

theorem timesTotalD_node (o : Op) (ts : List Real) (e : Bool) (ch : List DNode) :
    timesTotalD (.node o ts e ch) = ts.length + (ch.map timesTotalD).sum := by
  rw [timesTotalD]
  congr 1
  rw [List.attach_map_coe]

theorem sum_map_set {α : Type} (f : α → Nat) :
    ∀ (l : List α) (i : Nat) (a b : α), l.get? i = some a →
      ((l.set i b).map f).sum + f a = (l.map f).sum + f b := by
  intro l
  induction l with
  | nil => intro i a b h; cases h
  | cons x xs ih =>
    intro i a b h
    cases i with
    | zero =>
      rw [List.get?_cons_zero] at h
      injection h with h
      subst h
      have hset : (x :: xs).set 0 b = b :: xs := rfl
      rw [hset]
      simp only [List.map_cons, List.sum_cons]
      omega
    | succ i =>
      rw [List.get?_cons_succ] at h
      have hrec := ih i a b h
      have hset : (x :: xs).set (i + 1) b = x :: xs.set i b := rfl
      rw [hset]
      simp only [List.map_cons, List.sum_cons]
      omega

theorem timesTotalD_newChildD (op : Op) : timesTotalD (newChildD op) = 0 := by
  have h0 : newChildD op = .node op [] false [] := rfl
  rw [h0, timesTotalD_node]
  rfl

theorem timesTotalD_expandAtD (g : SGraph) :
    ∀ (pos : List Nat) (nd : DNode) (path : List Op),
      timesTotalD (expandAtD g nd pos path) = timesTotalD nd := by
  intro pos
  induction pos with
  | nil =>
    intro nd path
    unfold expandAtD
    split
    · rfl
    · split
      · rfl
      · cases nd with
        | node o ts e ch =>
          rw [timesTotalD_node, timesTotalD_node, List.map_append, List.sum_append]
          have hz : ((expandChildrenD g (o :: path)).map newChildD).map timesTotalD
              = (expandChildrenD g (o :: path)).map (fun _ => 0) := by
            rw [List.map_map]
            exact List.map_congr_left (fun a _ => timesTotalD_newChildD a)
          rw [hz]
          simp
  | cons i rest ih =>
    intro nd path
    unfold expandAtD
    cases hg : nd.children.get? i with
    | none => rfl
    | some c =>
      cases nd with
      | node o ts e ch =>
        rw [timesTotalD_node, timesTotalD_node]
        have hg' : ch.get? i = some c := hg
        have hset := sum_map_set timesTotalD ch i c
          (expandAtD g c rest (o :: path)) hg'
        have hc := ih c (o :: path)
        omega

/-- Claim C8 evaluation: one rank-0 iteration of the compiled driver
loop either fails or succeeds with the context unchanged and the total
number of recorded playout times in the tree unchanged: the benchmark
result is never backpropagated, because the whole benchmark-and-backprop
block of mcts.cpp sits between disabled preprocessor markers. -/
theorem c8_driver_iteration_never_backprops (g : SGraph) (ctx : DCtx) (root : DNode)
    (rng : List Nat) :
    (∃ e, mctsIterationR0 g ctx root rng = .error e)
    ∨ (∃ t' ord, mctsIterationR0 g ctx root rng = .ok (ctx, t', ord)
        ∧ timesTotalD t' = timesTotalD root) := by
  have hb : ∀ x : List Op, mpi_bcast 0 x x = .ok x := fun x => rfl
  have hstep : mctsIterationR0 g ctx root rng
      = match nodeAtD (expandAtD g root (selectPosD ctx g root) [])
            (selectPosD ctx g root) with
        | none => .error "internal"
        | some selected =>
          match chooseIdxD selected with
          | .error e => .error e
          | .ok ci =>
            match mpi_bcast 0
                (get_simulation_order g rng (opsAlongD
                  (expandAtD g root (selectPosD ctx g root) [])
                  (selectPosD ctx g root
                    ++ (match ci with | none => [] | some i => [i]))))
                (get_simulation_order g rng (opsAlongD
                  (expandAtD g root (selectPosD ctx g root) [])
                  (selectPosD ctx g root
                    ++ (match ci with | none => [] | some i => [i])))) with
            | .error e => .error e
            | .ok order2 =>
              .ok (ctx, expandAtD g root (selectPosD ctx g root) [], order2) := rfl
  rw [hstep]
  split
  · exact Or.inl ⟨"internal", rfl⟩
  · split
    · rename_i e heq
      exact Or.inl ⟨e, rfl⟩
    · split
      · rename_i e heq
        rw [hb] at heq
        cases heq
      · rename_i order2 heq
        rw [hb] at heq
        injection heq with heq
        subst heq
        exact Or.inr ⟨expandAtD g root (selectPosD ctx g root) [], _, rfl,
          timesTotalD_expandAtD g (selectPosD ctx g root) root []⟩

/- ===================== C3: UCT selection ===================== -/

theorem if_lt_max (a b : EReal) : (if a < b then b else a) = max a b := by
  rcases le_or_lt b a with h | h
  · rw [if_neg (not_lt.mpr h), max_eq_left h]
  · rw [if_pos h, max_eq_right (le_of_lt h)]

theorem foldl_congr_on {α β : Type} (f g : β → α → β) :
    ∀ (l : List α) (b : β), (∀ x ∈ l, ∀ acc, f acc x = g acc x) →
      l.foldl f b = l.foldl g b := by
  intro l
  induction l with
  | nil => intro b _; rfl
  | cons x xs ih =>
    intro b h
    show xs.foldl f (f b x) = xs.foldl g (g b x)
    rw [h x (List.mem_cons_self x xs) b]
    exact ih (g b x) (fun y hy acc => h y (List.mem_cons_of_mem x hy) acc)

theorem foldl_max_range (l : List EReal) :
    (List.range l.length).foldl (fun m i => max m (l.getD i ⊥)) ⊥ = l.foldl max ⊥ := by
  induction l using List.reverseRecOn with
  | nil => rfl
  | append_singleton xs x ih =>
    rw [List.length_append, List.length_singleton, List.range_succ,
      List.foldl_append, List.foldl_append]
    have hcong : (List.range xs.length).foldl
          (fun m i => max m ((xs ++ [x]).getD i ⊥)) ⊥
        = (List.range xs.length).foldl (fun m i => max m (xs.getD i ⊥)) ⊥ := by
      refine foldl_congr_on _ _ (List.range xs.length) ⊥ ?_
      intro i hi acc
      rw [List.getD_append xs [x] ⊥ i (List.mem_range.mp hi)]
    have hlast : (xs ++ [x]).getD xs.length ⊥ = x := by
      rw [List.getD_append_right xs [x] ⊥ xs.length (le_refl xs.length)]
      simp
    rw [hcong, ih, List.foldl_cons, List.foldl_cons, hlast]
    rfl

theorem argmaxFold_fst (l : List EReal) : (argmaxFold l).1 = l.foldl max ⊥ := by
  have hgen : ∀ (idxs : List Nat) (mi : EReal × Nat),
      ((idxs.foldl (fun mi i => if mi.1 < l.getD i ⊥ then (l.getD i ⊥, i) else mi) mi).1)
        = idxs.foldl (fun m i => max m (l.getD i ⊥)) mi.1 := by
    intro idxs
    induction idxs with
    | nil => intro mi; rfl
    | cons i is ih =>
      intro mi
      rw [List.foldl_cons, List.foldl_cons, ih]
      congr 1
      split
      · rename_i hlt
        exact (max_eq_right (le_of_lt hlt)).symm
      · rename_i hnlt
        exact (max_eq_left (not_lt.mp hnlt)).symm
  exact (hgen (List.range l.length) (⊥, 0)).trans (foldl_max_range l)

theorem le_foldl_max (l : List EReal) : ∀ x ∈ l, x ≤ l.foldl max ⊥ := by
  have hacc : ∀ (l : List EReal) (a : Nat → Nat), True := fun _ _ => trivial
  clear hacc
  have hmono : ∀ (l : List EReal) (a : EReal), a ≤ l.foldl max a := by
    intro l
    induction l with
    | nil => intro a; exact le_refl a
    | cons b bs ih =>
      intro a
      exact le_trans (le_max_left a b) (ih (max a b))
  have hgen : ∀ (l : List EReal) (a x : EReal), x ∈ l → x ≤ l.foldl max a := by
    intro l
    induction l with
    | nil => intro a x hx; cases hx
    | cons b bs ih =>
      intro a x hx
      rcases List.mem_cons.mp hx with rfl | hx'
      · exact le_trans (le_max_right a x) (hmono bs (max a x))
      · exact ih (max a b) x hx'
  exact fun x hx => hgen l ⊥ x hx

theorem foldl_max_mem (l : List EReal) (h : l ≠ []) : l.foldl max ⊥ ∈ l := by
  have hgen : ∀ (bs : List EReal) (a : EReal), bs.foldl max a ∈ a :: bs := by
    intro bs
    induction bs with
    | nil => intro a; exact List.mem_singleton_self a
    | cons b bs ih =>
      intro a
      show bs.foldl max (max a b) ∈ a :: b :: bs
      rcases List.mem_cons.mp (ih (max a b)) with heq | hmem
      · rcases max_choice a b with h1 | h1
        · rw [heq, h1]
          exact List.mem_cons_self a (b :: bs)
        · rw [heq, h1]
          exact List.mem_cons_of_mem a (List.mem_cons_self b bs)
      · exact List.mem_cons_of_mem a (List.mem_cons_of_mem b hmem)
  cases l with
  | nil => exact absurd rfl h
  | cons b bs =>
    have h0 : (b :: bs).foldl max ⊥ = bs.foldl max b := by
      show bs.foldl max (max ⊥ b) = bs.foldl max b
      rw [max_eq_right bot_le]
    rw [h0]
    exact hgen bs b

theorem choices_eq_tieIndices {Ctx : Type} (sel : Ctx → MNode → MNode → Real)
    (ctx : Ctx) (nd : MNode) :
    ((List.range (uctList sel ctx nd).length).filter
        (fun i => decide ((uctList sel ctx nd).getD i ⊥
          = (argmaxFold (uctList sel ctx nd)).1)))
      = tieIndices sel ctx nd := by
  unfold tieIndices maxUct
  rw [argmaxFold_fst]

theorem tieIndices_mem {Ctx : Type} (sel : Ctx → MNode → MNode → Real)
    (ctx : Ctx) (nd : MNode) (i : Nat) (hi : i ∈ tieIndices sel ctx nd) :
    i < nd.children.length
    ∧ (uctList sel ctx nd).getD i ⊥ = maxUct sel ctx nd := by
  unfold tieIndices at hi
  have h1 := List.mem_filter.mp hi
  have h2 : i < (uctList sel ctx nd).length := List.mem_range.mp h1.1
  have h3 := of_decide_eq_true h1.2
  refine ⟨?_, h3⟩
  have : (uctList sel ctx nd).length = nd.children.length := List.length_map _ _
  omega

theorem tieIndices_ne_nil {Ctx : Type} (sel : Ctx → MNode → MNode → Real)
    (ctx : Ctx) (nd : MNode) (h : nd.children ≠ []) :
    tieIndices sel ctx nd ≠ [] := by
  have hul : uctList sel ctx nd ≠ [] := by
    unfold uctList
    intro hcon
    exact h (List.map_eq_nil.mp hcon)
  have hmem : maxUct sel ctx nd ∈ uctList sel ctx nd := foldl_max_mem _ hul
  obtain ⟨⟨j, hj⟩, hget⟩ := List.mem_iff_get.mp hmem
  have hj2 : j ∈ List.range (uctList sel ctx nd).length := List.mem_range.mpr hj
  have hd : (uctList sel ctx nd).getD j ⊥ = maxUct sel ctx nd := by
    rw [List.getD_eq_getElem _ _ hj]
    exact hget
  have : j ∈ tieIndices sel ctx nd := by
    unfold tieIndices
    exact List.mem_filter.mpr ⟨hj2, decide_eq_true hd⟩
  exact List.ne_nil_of_mem this

theorem tieIndices_pick {Ctx : Type} (sel : Ctx → MNode → MNode → Real)
    (ctx : Ctx) (nd : MNode) (r : Nat) (h : tieIndices sel ctx nd ≠ []) :
    (tieIndices sel ctx nd).getD (r % (tieIndices sel ctx nd).length) 0
      ∈ tieIndices sel ctx nd := by
  have hlen : 0 < (tieIndices sel ctx nd).length := List.length_pos.mpr h
  have hmod : r % (tieIndices sel ctx nd).length < (tieIndices sel ctx nd).length :=
    Nat.mod_lt r hlen
  rw [List.getD_eq_getElem _ _ hmod]
  exact List.getElem_mem hmod

theorem children_ne_nil_of_not_leaf (nd : MNode) (hleaf : nd.isLeaf = false) :
    nd.children ≠ [] := by
  intro hcon
  unfold MNode.isLeaf at hleaf
  rw [hcon] at hleaf
  simp at hleaf

theorem sizeOf_child_lt (nd c : MNode) (hmem : c ∈ nd.children) :
    sizeOf c < sizeOf nd := by
  have h2 := List.sizeOf_lt_of_mem hmem
  cases nd with
  | node o e fv n ts ch =>
    simp [MNode.children] at h2
    simp
    omega

open Classical in
theorem selectNode_step {Ctx : Type} (sel : Ctx → MNode → MNode → Real) (ctx : Ctx)
    (g : SGraph) (rng : List Nat) (nd : MNode)
    (hleaf : nd.isLeaf = false) (hterm : nd.isTerminal g = false)
    (hlt : (tieIndices sel ctx nd).getD
        ((rng.headD 0) % (tieIndices sel ctx nd).length) 0 < nd.children.length) :
    selectNode sel ctx g rng nd
      = selectNode sel ctx g rng.tail
          (nd.children.get ⟨(tieIndices sel ctx nd).getD
            ((rng.headD 0) % (tieIndices sel ctx nd).length) 0, hlt⟩) := by
  have hcond : ¬((nd.isLeaf || nd.isTerminal g) = true) := by
    simp [hleaf, hterm]
  conv_lhs => rw [selectNode]
  rw [if_neg hcond]
  simp only [choices_eq_tieIndices sel ctx nd]
  rw [dif_pos hlt]

theorem selectNode_is_leaf_or_terminal {Ctx : Type}
    (sel : Ctx → MNode → MNode → Real) (ctx : Ctx) (g : SGraph) :
    ∀ (k : Nat) (rng : List Nat) (nd : MNode), sizeOf nd < k →
      (selectNode sel ctx g rng nd).isLeaf = true
      ∨ (selectNode sel ctx g rng nd).isTerminal g = true := by
  intro k
  induction k with
  | zero => intro rng nd h; exact absurd h (Nat.not_lt_zero _)
  | succ k ih =>
    intro rng nd hk
    cases hleaf : nd.isLeaf with
    | true =>
      have hsel : selectNode sel ctx g rng nd = nd := by
        rw [selectNode]
        rw [if_pos (by simp [hleaf])]
      rw [hsel]
      exact Or.inl hleaf
    | false =>
      cases hterm : nd.isTerminal g with
      | true =>
        have hsel : selectNode sel ctx g rng nd = nd := by
          rw [selectNode]
          rw [if_pos (by simp [hterm])]
        rw [hsel]
        exact Or.inr hterm
      | false =>
        have hne : nd.children ≠ [] := children_ne_nil_of_not_leaf nd hleaf
        have htie := tieIndices_ne_nil sel ctx nd hne
        have hpick := tieIndices_pick sel ctx nd (rng.headD 0) htie
        obtain ⟨hlt, _⟩ := tieIndices_mem sel ctx nd _ hpick
        rw [selectNode_step sel ctx g rng nd hleaf hterm hlt]
        have hsz : sizeOf (nd.children.get ⟨_, hlt⟩) < sizeOf nd :=
          sizeOf_child_lt nd _ (List.get_mem nd.children _ hlt)
        exact ih rng.tail _ (by omega)

/-- Claim C3: at a non-leaf, non-terminal node, select scores every
child with uct equal to the strategy exploitation term plus the
exploration term sqrt 2 times sqrt (log n over max(n_j, 1)), the
exploration term being bottom (negative infinity) for fully visited
children; the ties at the maximal uct are collected and the child at
the random draw modulo the tie count is descended into; the recursion
stops exactly at a leaf or terminal node.  Real-valued float arithmetic
is idealized over the extended reals and the uniform tie break is
modelled by the rand() oracle draw. -/
theorem c3_uct_selection {Ctx : Type} (sel : Ctx → MNode → MNode → Real)
    (ctx : Ctx) (g : SGraph) :
    (∀ (nd : MNode) (j : Nat) (hj : j < nd.children.length),
        uctScore sel ctx nd (nd.children.get ⟨j, hj⟩)
          = ((sel ctx nd (nd.children.get ⟨j, hj⟩) : Real) : EReal)
            + (if (nd.children.get ⟨j, hj⟩).fullyVisited then (⊥ : EReal)
               else ((Real.sqrt 2 * Real.sqrt (Real.log nd.n
                  / ((max (nd.children.get ⟨j, hj⟩).n 1 : Nat) : Real)) : Real) : EReal)))
    ∧ (∀ (rng : List Nat) (nd : MNode), nd.isLeaf = false → nd.isTerminal g = false →
        tieIndices sel ctx nd ≠ []
        ∧ (∀ i ∈ tieIndices sel ctx nd,
            i < nd.children.length
            ∧ (uctList sel ctx nd).getD i ⊥ = maxUct sel ctx nd)
        ∧ (∀ j, j < nd.children.length →
            (uctList sel ctx nd).getD j ⊥ ≤ maxUct sel ctx nd)
        ∧ (∃ c, nd.children.get? ((tieIndices sel ctx nd).getD
              ((rng.headD 0) % (tieIndices sel ctx nd).length) 0) = some c
            ∧ selectNode sel ctx g rng nd = selectNode sel ctx g rng.tail c))
    ∧ (∀ (rng : List Nat) (nd : MNode),
        (selectNode sel ctx g rng nd).isLeaf = true
        ∨ (selectNode sel ctx g rng nd).isTerminal g = true) := by
  refine ⟨?_, ?_, ?_⟩
  · intro nd j hj
    unfold uctScore
    cases hfv : (nd.children.get ⟨j, hj⟩).fullyVisited with
    | true => simp [hfv]
    | false =>
      simp only [hfv, Bool.false_eq_true, if_false]
      by_cases h1 : (nd.children.get ⟨j, hj⟩).n < 1
      · have hmax : max (nd.children.get ⟨j, hj⟩).n 1 = 1 := by omega
        rw [if_pos h1, hmax]
        norm_num
      · have hmax : max (nd.children.get ⟨j, hj⟩).n 1
            = (nd.children.get ⟨j, hj⟩).n := by omega
        rw [if_neg h1, hmax]
  · intro rng nd hleaf hterm
    have hne : nd.children ≠ [] := children_ne_nil_of_not_leaf nd hleaf
    have htie := tieIndices_ne_nil sel ctx nd hne
    refine ⟨htie, fun i hi => tieIndices_mem sel ctx nd i hi, ?_, ?_⟩
    · intro j hjlt
      have hj2 : j < (uctList sel ctx nd).length := by
        have : (uctList sel ctx nd).length = nd.children.length := List.length_map _ _
        omega
      have : (uctList sel ctx nd).getD j ⊥ ∈ uctList sel ctx nd := by
        rw [List.getD_eq_getElem _ _ hj2]
        exact List.getElem_mem hj2
      exact le_foldl_max _ _ this
    · have hpick := tieIndices_pick sel ctx nd (rng.headD 0) htie
      obtain ⟨hlt, _⟩ := tieIndices_mem sel ctx nd _ hpick
      exact ⟨nd.children.get ⟨_, hlt⟩, List.get?_eq_get hlt,
        selectNode_step sel ctx g rng nd hleaf hterm hlt⟩
  · intro rng nd
    exact selectNode_is_leaf_or_terminal sel ctx g (sizeOf nd + 1) rng nd
      (Nat.lt_succ_self _)

/-- Concrete closed instance of the selection theorem: the example root
over the two-vertex graph is neither a leaf nor terminal, the tie set at
its maximal uct is nonempty, and the node selection ends at a leaf or
terminal node. -/
theorem c3_uct_selection_witness :
    selTreeEx.isLeaf = false
    ∧ selTreeEx.isTerminal selGraphEx = false
    ∧ tieIndices (fun (_ : Unit) (_ _ : MNode) => (0 : Real)) () selTreeEx ≠ []
    ∧ ((selectNode (fun (_ : Unit) (_ _ : MNode) => (0 : Real)) ()
          selGraphEx [0] selTreeEx).isLeaf = true
       ∨ (selectNode (fun (_ : Unit) (_ _ : MNode) => (0 : Real)) ()
          selGraphEx [0] selTreeEx).isTerminal selGraphEx = true) :=
  ⟨by decide, by decide,
    ((c3_uct_selection (fun (_ : Unit) (_ _ : MNode) => (0 : Real)) ()
        selGraphEx).2.1 [0] selTreeEx (by decide) (by decide)).1,
    (c3_uct_selection (fun (_ : Unit) (_ _ : MNode) => (0 : Real)) ()
        selGraphEx).2.2 [0] selTreeEx⟩

/- ===================== C6: value equality of BoundOps ===================== -/

/-- Claim C6 counterexample: the claim says two values of the same
synchronization variant are equal only when their relevant fields agree,
but StreamSync::operator== ignores the stream (two StreamSyncs on
different streams compare equal) and CudaEventRecord::operator== compares
the name only (two records with the default name but different events and
streams compare equal). -/
theorem c6_sync_eq_ignores_fields :
    Op.eq (.streamSync "streamsync-anon" 0) (.streamSync "streamsync-anon" 1) = true
    ∧ (0 : StreamId) ≠ 1
    ∧ Op.eq (.cudaEventRecord "CudaEventRecord-anon" 0 0)
        (.cudaEventRecord "CudaEventRecord-anon" 1 1) = true
    ∧ (0 : EventId) ≠ 1 := by
  refine ⟨rfl, by decide, rfl, by decide⟩

/-- Claim C6 (amended): equality of BoundOps considers the variant
(operations with different tags are never equal); two BoundGpuOps are
equal iff they have the same stream and equal underlying GpuOps; values
of the StreamWait, CudaEventRecord, CudaStreamWaitEvent and CudaEventSync
variants are equal iff their names agree (their stream and event fields
are not compared); any two StreamSyncs compare equal. -/
theorem c6_eq_characterization :
    (∀ a b : Op, a.tag ≠ b.tag → Op.eq a b = false)
    ∧ (∀ i n s i' n' s',
        Op.eq (.boundGpuOp i n s) (.boundGpuOp i' n' s')
          = (s == s' && Op.eq (.gpuOp i n) (.gpuOp i' n')))
    ∧ (∀ n w r e n' w' r' e',
        Op.eq (.streamWait n w r e) (.streamWait n' w' r' e') = (n == n'))
    ∧ (∀ n e s n' e' s',
        Op.eq (.cudaEventRecord n e s) (.cudaEventRecord n' e' s') = (n == n'))
    ∧ (∀ n s e n' s' e',
        Op.eq (.cudaStreamWaitEvent n s e) (.cudaStreamWaitEvent n' s' e') = (n == n'))
    ∧ (∀ n e n' e', Op.eq (.cudaEventSync n e) (.cudaEventSync n' e') = (n == n'))
    ∧ (∀ n s n' s', Op.eq (.streamSync n s) (.streamSync n' s') = true) := by
  refine ⟨?_, fun _ _ _ _ _ _ => rfl, fun _ _ _ _ _ _ _ _ => rfl,
    fun _ _ _ _ _ _ => rfl, fun _ _ _ _ _ _ => rfl, fun _ _ _ _ => rfl,
    fun _ _ _ _ => rfl⟩
  intro a b htag
  cases a <;> cases b <;> first
    | rfl
    | exact absurd rfl htag

/-- Witness for the tag hypothesis of the C6 theorem at a concrete pair of
operations with different variants. -/
theorem c6_eq_characterization_witness :
    Op.tag (.cpuOp "a") ≠ Op.tag (.streamSync "s" 0)
    ∧ Op.eq (.cpuOp "a") (.streamSync "s" 0) = false := by
  exact ⟨by decide, c6_eq_characterization.1 _ _ (by decide)⟩


/- ===================== C7 / C10: broadcast round trip ===================== -/

theorem bcastPositions_found (order : List Op) (names : List String) (pos : List Nat)
    (h : bcastPositions order names = .ok pos) :
    ∀ nm ∈ names, (findPos order nm).isSome := by
  induction names generalizing pos with
  | nil => intro nm hnm; cases hnm
  | cons nm rest ih =>
    intro x hx
    rcases List.mem_cons.mp hx with rfl | hx
    · unfold bcastPositions at h
      cases hfp : findPos order x with
      | none => rw [hfp] at h; cases h
      | some i => simp [hfp]
    · unfold bcastPositions at h
      cases hfp : findPos order nm with
      | none => rw [hfp] at h; cases h
      | some i =>
        rw [hfp] at h
        cases hbp : bcastPositions order rest with
        | ok is => exact ih is hbp x hx
        | error e => rw [hbp] at h; cases h

theorem bcastRecv_elementwise (order : List Op) (ops : List Op)
    (h : ∀ o ∈ ops, ∃ i, findPos order o.name = some i
      ∧ (order.getD i (.cpuOp "")).name = o.name
      ∧ (order.getD i (.cpuOp "")).stream? = o.stream?) :
    ∃ res, bcastRecv order (ops.map Op.name) = .ok res
      ∧ res.length = ops.length
      ∧ ∀ k, k < ops.length →
          (res.getD k (.cpuOp "")).name = (ops.getD k (.cpuOp "")).name
          ∧ (res.getD k (.cpuOp "")).stream? = (ops.getD k (.cpuOp "")).stream? := by
  induction ops with
  | nil => exact ⟨[], rfl, rfl, fun k hk => absurd hk (Nat.not_lt_zero k)⟩
  | cons o rest ih =>
    obtain ⟨i, hfp, hname, hstream⟩ := h o (List.mem_cons_self o rest)
    obtain ⟨res, hres, hlen, helem⟩ := ih (fun x hx => h x (List.mem_cons_of_mem o hx))
    unfold bcastRecv at hres ⊢
    cases hbp : bcastPositions order (rest.map Op.name) with
    | error e => rw [hbp] at hres; cases hres
    | ok pos =>
      rw [hbp] at hres
      refine ⟨(order.getD i (.cpuOp "")) :: (pos.map (fun j => order.getD j (.cpuOp ""))), ?_, ?_, ?_⟩
      · simp [List.map_cons, bcastPositions, hfp, hbp]
      · have : res = pos.map (fun j => order.getD j (.cpuOp "")) := by
          cases hres; rfl
        subst this
        simpa using congrArg Nat.succ hlen
      · intro k hk
        have hres' : res = pos.map (fun j => order.getD j (.cpuOp "")) := by
          cases hres; rfl
        cases k with
        | zero => exact ⟨hname, hstream⟩
        | succ k =>
          have hk' : k < rest.length := Nat.lt_of_succ_lt_succ hk
          have := helem k hk'
          simpa [hres'] using this

/-- Claim C7 counterexample: two distinct BoundGpuOps of the same GpuOp on
different streams share a name; after mpi_bcast the receiving rank holds
its first matching operation in both positions, so position 1 differs from
the list of rank 0 in its stream, refuting element-by-element equality by
name and stream. -/
theorem c7_bcast_not_elementwise_equal :
    mpi_bcast 1 [Op.boundGpuOp 0 "A" 1, Op.boundGpuOp 0 "A" 2]
        [Op.boundGpuOp 0 "A" 1, Op.boundGpuOp 0 "A" 2]
      = .ok [Op.boundGpuOp 0 "A" 1, Op.boundGpuOp 0 "A" 1]
    ∧ Op.stream? ([Op.boundGpuOp 0 "A" 1, Op.boundGpuOp 0 "A" 1].getD 1 (.cpuOp ""))
      ≠ Op.stream? ([Op.boundGpuOp 0 "A" 1, Op.boundGpuOp 0 "A" 2].getD 1 (.cpuOp "")) := by
  exact ⟨rfl, by decide⟩

/-- Claim C7 (amended): provided every operation in the list of rank 0
resolves, by first-match on its name, to an operation of the local list
with the same name and stream (in particular when operation names are
unique and all ranks hold the same operation list), every non-zero rank
ends with a list equal element by element, by name and stream, to the
list of rank 0; and if some broadcast name has no matching local
operation the broadcast fails with the fatal error instead of producing
a list. -/
theorem c7_bcast_round_trip (rank : Nat) (rootOrder localOrder : List Op)
    (hr : rank ≠ 0) :
    ((∀ o ∈ rootOrder, ∃ i, findPos localOrder o.name = some i
        ∧ (localOrder.getD i (.cpuOp "")).name = o.name
        ∧ (localOrder.getD i (.cpuOp "")).stream? = o.stream?) →
      ∃ res, mpi_bcast rank rootOrder localOrder = .ok res
        ∧ res.length = rootOrder.length
        ∧ ∀ k, k < rootOrder.length →
            (res.getD k (.cpuOp "")).name = (rootOrder.getD k (.cpuOp "")).name
            ∧ (res.getD k (.cpuOp "")).stream? = (rootOrder.getD k (.cpuOp "")).stream?)
    ∧ ((∃ o ∈ rootOrder, findPos localOrder o.name = none) →
        ∃ e, mpi_bcast rank rootOrder localOrder = .error e) := by
  constructor
  · intro h
    rw [mpi_bcast_names rank rootOrder localOrder hr]
    exact bcastRecv_elementwise localOrder rootOrder h
  · intro ⟨o, ho, hnone⟩
    rw [mpi_bcast_names rank rootOrder localOrder hr]
    unfold bcastRecv
    cases hbp : bcastPositions localOrder (rootOrder.map Op.name) with
    | error e => exact ⟨e, rfl⟩
    | ok pos =>
      have := bcastPositions_found localOrder (rootOrder.map Op.name) pos hbp
        o.name (List.mem_map_of_mem Op.name ho)
      rw [hnone] at this
      cases this

/-- Witness for the round-trip theorem at the singleton order. -/
theorem c7_bcast_round_trip_witness :
    ∃ res, mpi_bcast 1 [Op.cpuOp "a"] [Op.cpuOp "a"] = .ok res
      ∧ res.length = [Op.cpuOp "a"].length
      ∧ ∀ k, k < [Op.cpuOp "a"].length →
          (res.getD k (.cpuOp "")).name = ([Op.cpuOp "a"].getD k (.cpuOp "")).name
          ∧ (res.getD k (.cpuOp "")).stream? = ([Op.cpuOp "a"].getD k (.cpuOp "")).stream? := by
  refine (c7_bcast_round_trip 1 [Op.cpuOp "a"] [Op.cpuOp "a"] (by decide)).1 ?_
  intro o ho
  rw [List.mem_singleton] at ho
  subst ho
  exact ⟨0, rfl, rfl, rfl⟩

/-- Claim C10: the receiver resolves each broadcast name to its first
local operation with that name; when the order of rank 0 holds two
distinct operations sharing a name, the reconstructed list holds the
first of them twice, omits the second, and is not a permutation of the
local list. -/
theorem c10_duplicate_names_break_permutation :
    mpi_bcast 1 [Op.boundGpuOp 0 "A" 1, Op.boundGpuOp 0 "A" 2]
        [Op.boundGpuOp 0 "A" 1, Op.boundGpuOp 0 "A" 2]
      = .ok [Op.boundGpuOp 0 "A" 1, Op.boundGpuOp 0 "A" 1]
    ∧ (Op.boundGpuOp 0 "A" 1) ≠ (Op.boundGpuOp 0 "A" 2)
    ∧ Op.name (Op.boundGpuOp 0 "A" 1) = Op.name (Op.boundGpuOp 0 "A" 2)
    ∧ [Op.boundGpuOp 0 "A" 1, Op.boundGpuOp 0 "A" 1].count (Op.boundGpuOp 0 "A" 1) = 2
    ∧ (Op.boundGpuOp 0 "A" 2) ∉ [Op.boundGpuOp 0 "A" 1, Op.boundGpuOp 0 "A" 1]
    ∧ ¬ List.Perm [Op.boundGpuOp 0 "A" 1, Op.boundGpuOp 0 "A" 1]
        [Op.boundGpuOp 0 "A" 1, Op.boundGpuOp 0 "A" 2] := by
  refine ⟨rfl, by decide, rfl, by decide, by decide, ?_⟩
  intro h
  have := h.count_eq (Op.boundGpuOp 0 "A" 2)
  revert this
  decide

end Tenzing
